import Mathlib

set_option maxHeartbeats 1000000

/-!
Shallow embedding of `src/pathfinder.py` (the `pathfinder` core and its
`manhattan_distance` helper), together with proofs of the specification
claims about it.

Modelling conventions:
* Python ints are `Int`; a cell `(row, col)` is `Int × Int`.
* The grid is a list of rows of integer labels, exactly the Python
  list-of-lists; `grid[r][c]` is modelled by `gridGet`, which returns
  `none` when the Python expression would raise `IndexError`.
* Python dicts (`came_from`, `g_score`, `f_score`) are association lists
  with the newest binding first, so lookup sees the latest assignment.
* The `heapq` heap is modelled as the list of its entries; `heappop`
  returns the least entry under Python tuple (lexicographic) comparison,
  which is what the binary-heap invariant guarantees.
* Every read of a grid cell is logged as a `GridEvent`; the trace lets us
  state the frame claims (no writes, all reads bounds-checked).
* The `while open_set:` loop runs on fuel; `searchFuel` is large enough
  that the fuel is never exhausted (proved below), so the fuel is a
  definitional device, not a semantic restriction.
-/

/-- A grid coordinate `(row, col)`, a Python pair of ints. -/
abbrev Cell := Int × Int

/-- A grid: a list of rows of integer cell labels, as in the Python source. -/
abbrev Grid := List (List Int)

/-- Source `manhattan_distance(a, b)`: `abs(a[0]-b[0]) + abs(a[1]-b[1])`. -/
def manhattan_distance (a b : Cell) : Int :=
  |a.1 - b.1| + |a.2 - b.2|

/-- Source line 34: the eight neighbor offsets
`[(0,1),(1,0),(0,-1),(-1,0),(1,1),(1,-1),(-1,1),(-1,-1)]`. -/
def directions : List (Int × Int) :=
  [(0, 1), (1, 0), (0, -1), (-1, 0), (1, 1), (1, -1), (-1, 1), (-1, -1)]

/-- An access performed on the grid object during a call. The search only
emits `read` events; a `write` event would be a mutation of the grid. -/
inductive GridEvent where
  | read (r c : Int)
  | write (r c : Int) (v : Int)
deriving DecidableEq, Repr

/-- Evaluate the Python expression `grid[r][c]` for the indices the search
uses (it only indexes after checking `0 <= r` and `0 <= c`); `none` models
an `IndexError`. -/
def gridGet (grid : Grid) (r c : Int) : Option Int :=
  if 0 ≤ r ∧ 0 ≤ c then
    match grid.get? r.toNat with
    | none => none
    | some row => row.get? c.toNat
  else none

/-- Association-list lookup modelling Python dict lookup (newest binding
first). -/
def alookup {α β : Type} [DecidableEq α] : List (α × β) → α → Option β
  | [], _ => none
  | (k, v) :: rest, a => if a = k then some v else alookup rest a

/-- The transient per-search state of `pathfinder`. -/
structure PFState where
  open_set : List (Int × Cell)
  closed_set : List Cell
  came_from : List (Cell × Cell)
  g_score : List (Cell × Int)
  f_score : List (Cell × Int)
  events : List GridEvent
deriving DecidableEq, Repr

/-- Python tuple comparison on heap entries `(f, (row, col))`, the order
used by `heapq`. -/
def entryLe (a b : Int × Cell) : Bool :=
  decide (a.1 < b.1 ∨ (a.1 = b.1 ∧ (a.2.1 < b.2.1 ∨ (a.2.1 = b.2.1 ∧ a.2.2 ≤ b.2.2))))

/-- The least entry of a nonempty heap, i.e. the entry `heapq.heappop`
returns (ties in the full key are identical entries). -/
def heapMin : (Int × Cell) → List (Int × Cell) → (Int × Cell)
  | m, [] => m
  | m, x :: xs => heapMin (if entryLe m x then m else x) xs

/-- `heapq.heappop`: remove and return the least entry; `none` on an empty
heap (where the Python `while open_set:` loop stops instead). -/
def popMin : List (Int × Cell) → Option ((Int × Cell) × List (Int × Cell))
  | [] => none
  | x :: xs =>
    let m := heapMin x xs
    some (m, (x :: xs).erase m)

/-- Source lines 71–95: the body of the neighbor loop for one offset `d`.
`Except.error` carries the state out when the grid read raises
`IndexError` (possible only on ragged grids). -/
def expandStep (grid : Grid) (rows cols obstacle_value : Int) (goal current : Cell)
    (d : Int × Int) (st : PFState) : Except PFState PFState :=
  let neighbor : Cell := (current.1 + d.1, current.2 + d.2)
  if 0 ≤ neighbor.1 ∧ neighbor.1 < rows ∧ 0 ≤ neighbor.2 ∧ neighbor.2 < cols then
    let st1 : PFState := { st with events := GridEvent.read neighbor.1 neighbor.2 :: st.events }
    match gridGet grid neighbor.1 neighbor.2 with
    | none => Except.error st1
    | some v =>
      if v = obstacle_value then
        Except.ok st1
      else if neighbor ∈ st1.closed_set then
        Except.ok st1
      else
        let tentative_g := (alookup st1.g_score current).getD 0 + 1
        if (! st1.open_set.any (fun e => decide (e.2 = neighbor)))
            || (match alookup st1.g_score neighbor with
                | none => true
                | some gv => decide (tentative_g < gv)) then
          let fv := tentative_g + manhattan_distance neighbor goal
          Except.ok
            { st1 with
              came_from := (neighbor, current) :: st1.came_from
              g_score := (neighbor, tentative_g) :: st1.g_score
              f_score := (neighbor, fv) :: st1.f_score
              open_set := (fv, neighbor) :: st1.open_set }
        else
          Except.ok st1
  else
    Except.ok st

/-- Source lines 70–95: the `for dx, dy in directions` loop, threading the
search state through `expandStep` and stopping at an `IndexError`. -/
def expandDirs (grid : Grid) (rows cols obstacle_value : Int) (goal current : Cell) :
    List (Int × Int) → PFState → Except PFState PFState
  | [], st => Except.ok st
  | d :: ds, st =>
    match expandStep grid rows cols obstacle_value goal current d st with
    | Except.error st1 => Except.error st1
    | Except.ok st1 => expandDirs grid rows cols obstacle_value goal current ds st1

/-- Source lines 59–61: the reconstruction loop, following `came_from`
from `current` and collecting cells in visit order. The fuel guards
against a cyclic map, on which the Python loop would diverge; it is shown
below never to run out on states the search produces. -/
def walkBack (cf : List (Cell × Cell)) : Nat → Cell → List Cell → Option (List Cell)
  | 0, current, path =>
    match alookup cf current with
    | none => some path
    | some _ => none
  | fuel + 1, current, path =>
    match alookup cf current with
    | none => some path
    | some prev => walkBack cf fuel prev (path ++ [current])

/-- Source lines 57–64: walk the predecessor map from the popped goal,
append `start`, and reverse. -/
def reconstructPath (cf : List (Cell × Cell)) (start goal : Cell) : Option (List Cell) :=
  (walkBack cf cf.length goal []).map (fun path => (path ++ [start]).reverse)

/-- Outcome of a call: a returned path, a returned `None`, an
`IndexError`, or fuel exhaustion (a model artifact, proved unreachable). -/
inductive PFResult where
  | path (p : List Cell)
  | noPath
  | indexError
  | outOfFuel
deriving DecidableEq, Repr

/-- Source lines 52–98: the `while open_set:` loop. -/
def searchLoop (grid : Grid) (rows cols obstacle_value : Int) (start goal : Cell) :
    Nat → PFState → PFResult × PFState
  | 0, st => (PFResult.outOfFuel, st)
  | fuel + 1, st =>
    match popMin st.open_set with
    | none => (PFResult.noPath, st)
    | some (entry, rest) =>
      let current := entry.2
      if current = goal then
        match reconstructPath st.came_from start current with
        | none => (PFResult.outOfFuel, st)
        | some p => (PFResult.path p, st)
      else
        let st1 : PFState :=
          { st with open_set := rest, closed_set := st.closed_set.insert current }
        match expandDirs grid rows cols obstacle_value goal current directions st1 with
        | Except.error st2 => (PFResult.indexError, st2)
        | Except.ok st2 => searchLoop grid rows cols obstacle_value start goal fuel st2

/-- Source lines 37–50: the state just before the loop starts. -/
def initState (start goal : Cell) : PFState :=
  { open_set := [(manhattan_distance start goal, start)]
    closed_set := []
    came_from := []
    g_score := [(start, 0)]
    f_score := [(start, manhattan_distance start goal)]
    events := [] }

/-- Fuel for the main loop; shown below to exceed the number of loop
iterations any call can perform. -/
def searchFuel (grid : Grid) : Nat :=
  let K := grid.length * (grid.headD []).length
  (K + 2) * (K + 2)

/-- Source `pathfinder(grid, start, goal, obstacle_value)`. An empty grid
makes `len(grid[0])` raise `IndexError` before the search state exists.
The second component is the trace of grid accesses the call performed. -/
def pathfinder (grid : Grid) (start goal : Cell) (obstacle_value : Int) :
    PFResult × List GridEvent :=
  match grid with
  | [] => (PFResult.indexError, [])
  | r0 :: _ =>
    let rows : Int := grid.length
    let cols : Int := r0.length
    let out := searchLoop grid rows cols obstacle_value start goal
      (searchFuel grid) (initState start goal)
    (out.1, out.2.events)

/-! Derived notions used to state and prove the claims. -/

/-- Number of rows, as the Python `len(grid)`. -/
def rowsOf (grid : Grid) : Int := grid.length

/-- Number of columns, as the Python `len(grid[0])` (0 for an empty grid). -/
def colsOf (grid : Grid) : Int := (grid.headD []).length

/-- The grid is non-empty and all rows have the length of row 0. -/
def Rectangular (grid : Grid) : Prop :=
  grid ≠ [] ∧ ∀ row ∈ grid, (row.length : Int) = colsOf grid

instance (grid : Grid) : Decidable (Rectangular grid) := by
  unfold Rectangular; exact instDecidableAnd

/-- The bounds check of source line 74. -/
def InBoundsC (rows cols : Int) (c : Cell) : Prop :=
  0 ≤ c.1 ∧ c.1 < rows ∧ 0 ≤ c.2 ∧ c.2 < cols

instance (rows cols : Int) (c : Cell) : Decidable (InBoundsC rows cols c) := by
  unfold InBoundsC; exact instDecidableAnd

/-- `n` is one of the eight legal moves away from `p`. -/
def Adjacent (p n : Cell) : Prop :=
  (n.1 - p.1, n.2 - p.2) ∈ directions

instance (p n : Cell) : Decidable (Adjacent p n) := by
  unfold Adjacent; infer_instance

/-- `c` can be reached from `start` by 8-neighbor moves whose targets are
in bounds and not labeled with the obstacle value. -/
inductive Reachable (grid : Grid) (rows cols obstacle_value : Int) (start : Cell) : Cell → Prop where
  | refl : Reachable grid rows cols obstacle_value start start
  | step {c n : Cell} : Reachable grid rows cols obstacle_value start c → Adjacent c n →
      InBoundsC rows cols n → gridGet grid n.1 n.2 ≠ some obstacle_value →
      Reachable grid rows cols obstacle_value start n

/-- The shape of the list collected by the reconstruction loop: from `c`,
following `cf`, the collected cells are `L` and the walk stops at `r`. -/
inductive CFChain (cf : List (Cell × Cell)) : Cell → List Cell → Cell → Prop where
  | nil {c : Cell} : alookup cf c = none → CFChain cf c [] c
  | cons {c p r : Cell} {L : List Cell} : alookup cf c = some p →
      CFChain cf p L r → CFChain cf c (c :: L) r

/-- The cells holding a `g_score`. -/
def gKeys (st : PFState) : List Cell := st.g_score.map Prod.fst

/-- The number of distinct cells holding a `g_score`. -/
def gKeysCard (st : PFState) : Nat := (gKeys st).toFinset.card

/-- The in-bounds cells as a finite set. -/
def cellsF (rows cols : Int) : Finset Cell :=
  Finset.Ico 0 rows ×ˢ Finset.Ico 0 cols

/-- Potential of one cell: its `g_score` if any, else the cap `B`. -/
def potAt (B : Nat) (st : PFState) (c : Cell) : Nat :=
  match alookup st.g_score c with
  | none => B
  | some v => v.toNat

/-- Termination potential: heap size plus the summed cell potentials;
it strictly decreases at every loop iteration. -/
def phi (rows cols : Int) (B : Nat) (st : PFState) : Nat :=
  st.open_set.length + ∑ c ∈ cellsF rows cols, potAt B st c

/-- The loop invariant of the search. -/
structure SearchInv (grid : Grid) (rows cols obstacle_value : Int) (start : Cell) (st : PFState) : Prop where
  cf_adj : ∀ n p, alookup st.came_from n = some p → Adjacent p n
  cf_g : ∀ n p, alookup st.came_from n = some p →
    ∃ gn gp, alookup st.g_score n = some gn ∧ alookup st.g_score p = some gp ∧ gp < gn
  g_start : alookup st.g_score start = some 0
  cf_start : alookup st.came_from start = none
  g_cf : ∀ n, alookup st.g_score n ≠ none → n = start ∨ alookup st.came_from n ≠ none
  g_bounds : ∀ n gn, alookup st.g_score n = some gn → 0 ≤ gn ∧ gn < (gKeysCard st : Int)
  open_g : ∀ e ∈ st.open_set, alookup st.g_score e.2 ≠ none
  g_oc : ∀ n, alookup st.g_score n ≠ none → (∃ e ∈ st.open_set, e.2 = n) ∨ n ∈ st.closed_set
  g_cell : ∀ n, alookup st.g_score n ≠ none → n = start ∨
      (InBoundsC rows cols n ∧ gridGet grid n.1 n.2 ≠ some obstacle_value)
  g_reach : ∀ n, alookup st.g_score n ≠ none → Reachable grid rows cols obstacle_value start n
  start_oc : (∃ e ∈ st.open_set, e.2 = start) ∨ start ∈ st.closed_set

/-- What C1 requires of a returned path. -/
structure PathOK (grid : Grid) (rows cols obstacle_value : Int) (start goal : Cell)
    (p : List Cell) : Prop where
  head : p.head? = some start
  last : p.getLast? = some goal
  adj : List.Chain' Adjacent p
  nodup : p.Nodup
  cells : ∀ c ∈ p, c = start ∨
    (InBoundsC rows cols c ∧ gridGet grid c.1 c.2 ≠ some obstacle_value)

/-- Replay a grid access on the grid: a read leaves it unchanged, a write
stores the value (Python list assignment `grid[r][c] = v`). -/
def applyEvent (grid : Grid) : GridEvent → Grid
  | GridEvent.read _ _ => grid
  | GridEvent.write r c v =>
    if 0 ≤ r ∧ 0 ≤ c then
      grid.set r.toNat ((grid.getD r.toNat []).set c.toNat v)
    else grid

/-- Replay a whole access trace on the grid. -/
def applyEvents (grid : Grid) (evs : List GridEvent) : Grid :=
  evs.foldl applyEvent grid

/-- The state built by a successful relaxation (source lines 90–95):
record the predecessor, the new g and f scores, and push the neighbor. -/
def relaxState (st : PFState) (current m : Cell) (tentative fv : Int) : PFState :=
  { st with came_from := (m, current) :: st.came_from,
            g_score := (m, tentative) :: st.g_score,
            f_score := (m, fv) :: st.f_score,
            open_set := (fv, m) :: st.open_set }

/-- The g-score of a cell, defaulting to 0; on reconstruction chains every
cell has a score, so the default is never seen. -/
def gval (st : PFState) (x : Cell) : Int := (alookup st.g_score x).getD 0

/-- A benign grid access: a read at bounds-checked coordinates. Every
event the search emits is of this form. -/
def GoodEvent (rows cols : Int) (e : GridEvent) : Prop :=
  ∃ r c, e = GridEvent.read r c ∧ 0 ≤ r ∧ r < rows ∧ 0 ≤ c ∧ c < cols

/-- Chebyshev distance between two cells, the optimal cost under
8-directional unit-cost movement. -/
def chebyshev (a b : Cell) : Int :=
  max |a.1 - b.1| |a.2 - b.2|

/-- Chebyshev distance as a natural number. -/
def chebN (a b : Cell) : Nat :=
  max (a.1 - b.1).natAbs (a.2 - b.2).natAbs

/-- Manhattan distance as a natural number. -/
def manN (a b : Cell) : Nat :=
  (a.1 - b.1).natAbs + (a.2 - b.2).natAbs

/-- One step of the canonical monotone path: move each coordinate toward
`t` by its sign. -/
def beamStep (t c : Cell) : Cell :=
  (c.1 + (t.1 - c.1).sign, c.2 + (t.2 - c.2).sign)

/-- The canonical monotone path from `s` toward `t`; on an obstacle-free
grid the search pops exactly these cells, in order. -/
def beam (s t : Cell) : Nat → Cell
  | 0 => s
  | i + 1 => beamStep t (beam s t i)

/-- No cell of the grid carries the obstacle label. -/
def ObstacleFree (grid : Grid) (obstacle_value : Int) : Prop :=
  ∀ row ∈ grid, ∀ v ∈ row, v ≠ obstacle_value

instance (grid : Grid) (obstacle_value : Int) : Decidable (ObstacleFree grid obstacle_value) := by
  unfold ObstacleFree
  infer_instance

/-- The state of the search on an obstacle-free grid just before the cell
`beam s t i` is popped: the beam prefix is closed, the entry of
`beam s t i` is the strict minimum of the heap, and the scores and
predecessors of the beam prefix are recorded. -/
structure ReadyInv (rows cols : Int) (s t : Cell) (i : Nat) (st : PFState) : Prop where
  closed_iff : ∀ x, x ∈ st.closed_set ↔ ∃ j : Nat, j < i ∧ x = beam s t j
  beam_entry : (((i : Int)) + manhattan_distance (beam s t i) t, beam s t i) ∈ st.open_set
  open_gt : ∀ e ∈ st.open_set,
    e = (((i : Int)) + manhattan_distance (beam s t i) t, beam s t i) ∨
    ((i : Int)) + manhattan_distance (beam s t i) t < e.1
  open_not_closed : ∀ e ∈ st.open_set, e.2 ∉ st.closed_set
  open_cells_nodup : (st.open_set.map Prod.snd).Nodup
  g_le : ∀ x gx, alookup st.g_score x = some gx → gx ≤ (i : Int)
  g_beam : ∀ j : Nat, j ≤ i → alookup st.g_score (beam s t j) = some (j : Int)
  cf_beam : ∀ j : Nat, j < i → alookup st.came_from (beam s t (j + 1)) = some (beam s t j)
  g_near : ∀ x, alookup st.g_score x ≠ none → x = s ∨ ∃ j : Nat, j < i ∧ Adjacent (beam s t j) x

/-- The 5×5 grid of the concrete scenario of C7: obstacle label 2 filling
column 2 in rows 0–3, row 4 open. -/
def wallGrid5 : Grid :=
  [[0, 0, 2, 0, 0],
   [0, 0, 2, 0, 0],
   [0, 0, 2, 0, 0],
   [0, 0, 2, 0, 0],
   [0, 0, 0, 0, 0]]

/-! Basic lemmas about the small model components. -/

theorem alookup_cons {α β : Type} [DecidableEq α] (k : α) (v : β) (l : List (α × β)) (a : α) :
    alookup ((k, v) :: l) a = if a = k then some v else alookup l a := rfl

theorem alookup_ne_none_iff {α β : Type} [DecidableEq α] {l : List (α × β)} {a : α} :
    alookup l a ≠ none ↔ a ∈ l.map Prod.fst := by
  induction l with
  | nil => simp [alookup]
  | cons x xs ih =>
    obtain ⟨k, v⟩ := x
    by_cases h : a = k <;> simp [alookup, h, ih]

theorem heapMin_mem (x : Int × Cell) (xs : List (Int × Cell)) : heapMin x xs ∈ x :: xs := by
  induction xs generalizing x with
  | nil => simp [heapMin]
  | cons y ys ih =>
    rw [heapMin]
    have h := ih (if entryLe x y then x else y)
    rcases List.mem_cons.mp h with h1 | h1
    · rw [h1]; split
      · exact List.mem_cons_self _ _
      · exact List.mem_cons_of_mem _ (List.mem_cons_self _ _)
    · exact List.mem_cons_of_mem _ (List.mem_cons_of_mem _ h1)

theorem popMin_spec {l : List (Int × Cell)} {e : Int × Cell} {rest : List (Int × Cell)}
    (h : popMin l = some (e, rest)) : e ∈ l ∧ rest = l.erase e := by
  cases l with
  | nil => simp [popMin] at h
  | cons x xs =>
    simp only [popMin, Option.some.injEq, Prod.mk.injEq] at h
    obtain ⟨h1, h2⟩ := h
    subst h1; subst h2
    exact ⟨heapMin_mem x xs, rfl⟩

theorem mem_erase_or_eq {l : List (Int × Cell)} {a : Int × Cell} (b : Int × Cell) (h : a ∈ l) :
    a ∈ l.erase b ∨ a = b := by
  by_cases hab : a = b
  · right; exact hab
  · left; exact (List.mem_erase_of_ne hab).mpr h

theorem gridGet_rect {grid : Grid} {c : Cell} (hrect : Rectangular grid)
    (hin : InBoundsC (rowsOf grid) (colsOf grid) c) :
    ∃ v, gridGet grid c.1 c.2 = some v := by
  obtain ⟨h1, h2, h3, h4⟩ := hin
  have hr : c.1.toNat < grid.length := by
    unfold rowsOf at h2; omega
  obtain ⟨row, hrow⟩ : ∃ row, grid.get? c.1.toNat = some row := by
    rw [List.get?_eq_get hr]; exact ⟨_, rfl⟩
  have hmem : row ∈ grid := List.get?_mem hrow
  have hlen : (row.length : Int) = colsOf grid := hrect.2 row hmem
  have hc : c.2.toNat < row.length := by omega
  obtain ⟨v, hv⟩ : ∃ v, row.get? c.2.toNat = some v := by
    rw [List.get?_eq_get hc]; exact ⟨_, rfl⟩
  refine ⟨v, ?_⟩
  unfold gridGet
  rw [if_pos ⟨h1, h3⟩, hrow]
  exact hv

theorem mem_cellsF {rows cols : Int} {c : Cell} :
    c ∈ cellsF rows cols ↔ InBoundsC rows cols c := by
  unfold cellsF InBoundsC
  rw [Finset.mem_product, Finset.mem_Ico, Finset.mem_Ico]
  tauto

theorem cellsF_card (rows cols : Int) : (cellsF rows cols).card = rows.toNat * cols.toNat := by
  unfold cellsF
  rw [Finset.card_product, Int.card_Ico, Int.card_Ico]
  simp

theorem mem_directions_ne_zero {d : Int × Int} (hd : d ∈ directions) : d ≠ (0, 0) := by
  intro h
  subst h
  exact absurd hd (by decide)

theorem alookup_cons_ne_none {α β : Type} [DecidableEq α] {l : List (α × β)} {a k : α} {v : β}
    (h : alookup l a ≠ none) : alookup ((k, v) :: l) a ≠ none := by
  rw [alookup_cons]
  split
  · simp
  · exact h

theorem gKeysCard_le {grid : Grid} {rows cols obstacle_value : Int} {start : Cell} {st : PFState}
    (hinv : SearchInv grid rows cols obstacle_value start st) :
    gKeysCard st ≤ rows.toNat * cols.toNat + 1 := by
  have hsub : (gKeys st).toFinset ⊆ insert start (cellsF rows cols) := by
    intro a ha
    rw [List.mem_toFinset] at ha
    rcases hinv.g_cell a (alookup_ne_none_iff.mpr ha) with h | h
    · rw [h]; exact Finset.mem_insert_self _ _
    · exact Finset.mem_insert_of_mem (mem_cellsF.mpr h.1)
  calc gKeysCard st ≤ (insert start (cellsF rows cols)).card := Finset.card_le_card hsub
    _ ≤ (cellsF rows cols).card + 1 := Finset.card_insert_le _ _
    _ = rows.toNat * cols.toNat + 1 := by rw [cellsF_card]

theorem SearchInv_events {grid : Grid} {rows cols obstacle_value : Int} {start : Cell}
    {st : PFState} (evs : List GridEvent)
    (hinv : SearchInv grid rows cols obstacle_value start st) :
    SearchInv grid rows cols obstacle_value start { st with events := evs } :=
  ⟨hinv.cf_adj, hinv.cf_g, hinv.g_start, hinv.cf_start, hinv.g_cf, hinv.g_bounds,
   hinv.open_g, hinv.g_oc, hinv.g_cell, hinv.g_reach, hinv.start_oc⟩

theorem phi_events {rows cols : Int} {B : Nat} {st : PFState} {evs : List GridEvent} :
    phi rows cols B { st with events := evs } = phi rows cols B st := rfl

theorem SearchInv_relax {grid : Grid} {rows cols obstacle_value : Int}
    {start goal current m : Cell} {st : PFState} {gc v : Int}
    (hinv : SearchInv grid rows cols obstacle_value start st)
    (hgc : alookup st.g_score current = some gc)
    (hin : InBoundsC rows cols m)
    (hadj : Adjacent current m)
    (hval : gridGet grid m.1 m.2 = some v) (hvo : v ≠ obstacle_value)
    (hmg : alookup st.g_score m = none ∨
      ∃ gm, alookup st.g_score m = some gm ∧ gc + 1 < gm)
    (hmne : m ≠ current) :
    SearchInv grid rows cols obstacle_value start
      (relaxState st current m (gc + 1) (gc + 1 + manhattan_distance m goal)) := by
  obtain ⟨hgc0, hgcc⟩ := hinv.g_bounds current gc hgc
  have hmob : gridGet grid m.1 m.2 ≠ some obstacle_value := by
    rw [hval]
    intro hh
    injection hh with hh
    exact hvo hh
  have hmstart : m ≠ start := by
    intro h
    subst h
    rcases hmg with h1 | ⟨gm, h1, h2⟩
    · rw [hinv.g_start] at h1
      exact Option.noConfusion h1
    · rw [hinv.g_start] at h1
      injection h1 with h1
      omega
  have hk : gKeys (relaxState st current m (gc + 1) (gc + 1 + manhattan_distance m goal))
      = m :: gKeys st := rfl
  have hcard : gKeysCard st ≤ gKeysCard (relaxState st current m (gc + 1) (gc + 1 + manhattan_distance m goal)) ∧
      (gc + 1 : Int) < gKeysCard (relaxState st current m (gc + 1) (gc + 1 + manhattan_distance m goal)) := by
    unfold gKeysCard
    rw [hk, List.toFinset_cons]
    rcases hmg with h1 | ⟨gm, h1, h2⟩
    · have hmnot : m ∉ (gKeys st).toFinset := by
        rw [List.mem_toFinset]
        intro hmem
        exact (alookup_ne_none_iff.mpr hmem) h1
      rw [Finset.card_insert_of_not_mem hmnot]
      constructor
      · omega
      · unfold gKeysCard at hgcc
        push_cast at hgcc ⊢
        omega
    · have hmmem : m ∈ (gKeys st).toFinset := by
        rw [List.mem_toFinset]
        exact alookup_ne_none_iff.mp (by rw [h1]; simp)
      rw [Finset.insert_eq_self.mpr hmmem]
      have := (hinv.g_bounds m gm h1).2
      constructor
      · omega
      · unfold gKeysCard at this
        omega
  obtain ⟨hcard1, hcard2⟩ := hcard
  refine ⟨?_, ?_, ?_, ?_, ?_, ?_, ?_, ?_, ?_, ?_, ?_⟩ <;> dsimp only [relaxState]
  · -- cf_adj
    intro n p h
    rw [alookup_cons] at h
    by_cases hn : n = m
    · rw [if_pos hn] at h
      injection h with h
      subst h
      subst hn
      exact hadj
    · rw [if_neg hn] at h
      exact hinv.cf_adj n p h
  · -- cf_g
    intro n p h
    rw [alookup_cons] at h
    by_cases hn : n = m
    · rw [if_pos hn] at h
      injection h with h
      subst h
      subst hn
      refine ⟨gc + 1, gc, ?_, ?_, by omega⟩
      · rw [alookup_cons, if_pos rfl]
      · rw [alookup_cons, if_neg (fun hh => hmne hh.symm)]
        exact hgc
    · rw [if_neg hn] at h
      obtain ⟨gn, gp, hgn, hgp, hlt⟩ := hinv.cf_g n p h
      by_cases hp : p = m
      · subst hp
        rcases hmg with h1 | ⟨gm, h1, h2⟩
        · rw [h1] at hgp
          exact Option.noConfusion hgp
        · rw [h1] at hgp
          injection hgp with hgp
          refine ⟨gn, gc + 1, ?_, ?_, by omega⟩
          · rw [alookup_cons, if_neg hn]
            exact hgn
          · rw [alookup_cons, if_pos rfl]
      · refine ⟨gn, gp, ?_, ?_, hlt⟩
        · rw [alookup_cons, if_neg hn]
          exact hgn
        · rw [alookup_cons, if_neg hp]
          exact hgp
  · -- g_start
    rw [alookup_cons, if_neg (fun hh => hmstart hh.symm)]
    exact hinv.g_start
  · -- cf_start
    rw [alookup_cons, if_neg (fun hh => hmstart hh.symm)]
    exact hinv.cf_start
  · -- g_cf
    intro n hn
    rw [alookup_cons] at hn
    by_cases hnm : n = m
    · right
      rw [alookup_cons, if_pos hnm]
      simp
    · rw [if_neg hnm] at hn
      rcases hinv.g_cf n hn with h | h
      · left; exact h
      · right
        rw [alookup_cons, if_neg hnm]
        exact h
  · -- g_bounds
    intro n gn hgn
    rw [alookup_cons] at hgn
    by_cases hnm : n = m
    · rw [if_pos hnm] at hgn
      injection hgn with e
      subst e
      exact ⟨by omega, hcard2⟩
    · rw [if_neg hnm] at hgn
      obtain ⟨h1, h2⟩ := hinv.g_bounds n gn hgn
      refine ⟨h1, lt_of_lt_of_le h2 ?_⟩
      exact_mod_cast hcard1
  · -- open_g
    intro e he
    rcases List.mem_cons.mp he with he | he
    · rw [he]
      dsimp only
      rw [alookup_cons, if_pos rfl]
      simp
    · exact alookup_cons_ne_none (hinv.open_g e he)
  · -- g_oc
    intro n hn
    rw [alookup_cons] at hn
    by_cases hnm : n = m
    · left
      exact ⟨(gc + 1 + manhattan_distance m goal, m), List.mem_cons_self _ _, hnm.symm⟩
    · rw [if_neg hnm] at hn
      rcases hinv.g_oc n hn with ⟨e, he, he2⟩ | h
      · left
        exact ⟨e, List.mem_cons_of_mem _ he, he2⟩
      · right
        exact h
  · -- g_cell
    intro n hn
    rw [alookup_cons] at hn
    by_cases hnm : n = m
    · subst hnm
      right
      exact ⟨hin, hmob⟩
    · rw [if_neg hnm] at hn
      exact hinv.g_cell n hn
  · -- g_reach
    intro n hn
    rw [alookup_cons] at hn
    by_cases hnm : n = m
    · subst hnm
      exact Reachable.step (hinv.g_reach current (by rw [hgc]; simp)) hadj hin hmob
    · rw [if_neg hnm] at hn
      exact hinv.g_reach n hn
  · -- start_oc
    rcases hinv.start_oc with ⟨e, he, he2⟩ | h
    · left
      exact ⟨e, List.mem_cons_of_mem _ he, he2⟩
    · right
      exact h

theorem phi_relax {rows cols : Int} {B : Nat} (st st2 : PFState) {m : Cell} {gnew : Int}
    {e : Int × Cell}
    (h2g : st2.g_score = (m, gnew) :: st.g_score)
    (h2o : st2.open_set = e :: st.open_set)
    (hin : InBoundsC rows cols m)
    (hpot : gnew.toNat + 1 ≤ potAt B st m) :
    phi rows cols B st2 ≤ phi rows cols B st := by
  have hfunpt : ∀ c, potAt B st2 c = if c = m then gnew.toNat else potAt B st c := by
    intro c
    unfold potAt
    rw [h2g, alookup_cons]
    by_cases hc : c = m
    · rw [if_pos hc, if_pos hc]
    · rw [if_neg hc, if_neg hc]
  have hfun : potAt B st2 = Function.update (potAt B st) m gnew.toNat := by
    funext c
    rw [hfunpt c, Function.update_apply]
  have hsum2 : ∑ c ∈ cellsF rows cols, potAt B st2 c
      = gnew.toNat + ∑ c ∈ cellsF rows cols \ {m}, potAt B st c := by
    rw [hfun]
    exact Finset.sum_update_of_mem (mem_cellsF.mpr hin) _ _
  have hsum1 : ∑ c ∈ cellsF rows cols, potAt B st c
      = (∑ c ∈ cellsF rows cols \ {m}, potAt B st c) + potAt B st m :=
    Finset.sum_eq_sum_diff_singleton_add (mem_cellsF.mpr hin) _
  unfold phi
  rw [h2o, hsum2, hsum1, List.length_cons]
  omega

theorem expandStep_ok
    {grid : Grid} {rows cols obstacle_value : Int} {goal current start : Cell}
    {d : Int × Int} {st : PFState} {B : Nat}
    (hrect : Rectangular grid) (hrows : rows = rowsOf grid) (hcols : cols = colsOf grid)
    (hinv : SearchInv grid rows cols obstacle_value start st)
    (hcur : alookup st.g_score current ≠ none)
    (hd : d ∈ directions)
    (hB : B = rows.toNat * cols.toNat + 2) :
    ∃ st2, expandStep grid rows cols obstacle_value goal current d st = Except.ok st2 ∧
      SearchInv grid rows cols obstacle_value start st2 ∧
      phi rows cols B st2 ≤ phi rows cols B st ∧
      alookup st2.g_score current = alookup st.g_score current := by
  obtain ⟨gc, hgc⟩ : ∃ gc, alookup st.g_score current = some gc := by
    cases h : alookup st.g_score current
    · exact absurd h hcur
    · exact ⟨_, rfl⟩
  have hne : (current.1 + d.1, current.2 + d.2) ≠ current := by
    intro h
    have h1 : current.1 + d.1 = current.1 := congrArg Prod.fst h
    have h2 : current.2 + d.2 = current.2 := congrArg Prod.snd h
    apply mem_directions_ne_zero hd
    have e1 : d.1 = 0 := by omega
    have e2 : d.2 = 0 := by omega
    calc d = (d.1, d.2) := rfl
      _ = (0, 0) := by rw [e1, e2]
  have hadj : Adjacent current (current.1 + d.1, current.2 + d.2) := by
    unfold Adjacent
    dsimp only
    have e1 : current.1 + d.1 - current.1 = d.1 := by ring
    have e2 : current.2 + d.2 - current.2 = d.2 := by ring
    rw [e1, e2, Prod.mk.eta]
    exact hd
  simp only [expandStep]
  dsimp only
  split
  case isTrue hbnd =>
    have hin : InBoundsC rows cols (current.1 + d.1, current.2 + d.2) := hbnd
    have hin2 : InBoundsC (rowsOf grid) (colsOf grid) (current.1 + d.1, current.2 + d.2) := by
      rw [← hrows, ← hcols]
      exact hin
    split
    case h_1 heq =>
      obtain ⟨v, hv⟩ := gridGet_rect hrect hin2
      have hv2 : gridGet grid (current.1 + d.1) (current.2 + d.2) = some v := hv
      rw [hv2] at heq
      exact Option.noConfusion heq
    case h_2 v heq =>
      split
      case isTrue hvo =>
        exact ⟨_, rfl, SearchInv_events _ hinv, le_of_eq rfl, rfl⟩
      case isFalse hvo =>
        split
        case isTrue hcl =>
          exact ⟨_, rfl, SearchInv_events _ hinv, le_of_eq rfl, rfl⟩
        case isFalse hcl =>
          split
          case isTrue hcond =>
            have hmg : alookup st.g_score (current.1 + d.1, current.2 + d.2) = none ∨
                ∃ gm, alookup st.g_score (current.1 + d.1, current.2 + d.2) = some gm ∧
                  gc + 1 < gm := by
              cases hmgx : alookup st.g_score (current.1 + d.1, current.2 + d.2) with
              | none => exact Or.inl rfl
              | some gm =>
                right
                have hmem : alookup st.g_score (current.1 + d.1, current.2 + d.2) ≠ none := by
                  rw [hmgx]; simp
                rcases hinv.g_oc _ hmem with ⟨e, he, he2⟩ | hclm
                · have hany : st.open_set.any
                      (fun e => decide (e.2 = (current.1 + d.1, current.2 + d.2))) = true :=
                    List.any_eq_true.mpr ⟨e, he, by rw [he2]; simp⟩
                  rw [hany] at hcond
                  simp only [Bool.not_true, Bool.false_or, hmgx, hgc, Option.getD_some,
                    decide_eq_true_eq] at hcond
                  exact ⟨gm, rfl, hcond⟩
                · exact absurd hclm hcl
            have hpot : (gc + 1).toNat + 1 ≤ potAt B st (current.1 + d.1, current.2 + d.2) := by
              have hcardle := gKeysCard_le hinv
              obtain ⟨hb0, hb1⟩ := hinv.g_bounds current gc hgc
              rcases hmg with h1 | ⟨gm, h1, h2⟩
              · have hpeq : potAt B st (current.1 + d.1, current.2 + d.2) = B := by
                  unfold potAt
                  rw [h1]
                rw [hpeq]
                omega
              · have hpeq : potAt B st (current.1 + d.1, current.2 + d.2) = gm.toNat := by
                  unfold potAt
                  rw [h1]
                obtain ⟨hm0, hm1⟩ := hinv.g_bounds _ gm h1
                rw [hpeq]
                omega
            simp only [hgc, Option.getD_some]
            refine ⟨_, rfl, ?_, ?_, ?_⟩
            · refine @SearchInv_relax grid rows cols obstacle_value start goal current
                (current.1 + d.1, current.2 + d.2)
                { st with events := GridEvent.read (current.1 + d.1) (current.2 + d.2) :: st.events }
                gc v ?_ hgc hin hadj heq hvo hmg hne
              exact SearchInv_events _ hinv
            · exact phi_relax st _ rfl rfl hin hpot
            · show alookup ((((current.1 + d.1, current.2 + d.2) : Cell), gc + 1) ::
                  st.g_score) current = some gc
              rw [alookup_cons, if_neg (fun hh => hne hh.symm)]
              exact hgc
          case isFalse hcond =>
            exact ⟨_, rfl, SearchInv_events _ hinv, le_of_eq rfl, rfl⟩
  case isFalse hbnd =>
    exact ⟨st, rfl, hinv, le_refl _, rfl⟩

theorem expandDirs_cons {grid : Grid} {rows cols obstacle_value : Int} {goal current : Cell}
    {d : Int × Int} {ds : List (Int × Int)} {st st1 : PFState}
    (h : expandStep grid rows cols obstacle_value goal current d st = Except.ok st1) :
    expandDirs grid rows cols obstacle_value goal current (d :: ds) st =
      expandDirs grid rows cols obstacle_value goal current ds st1 := by
  rw [expandDirs, h]

theorem expandDirs_ok
    {grid : Grid} {rows cols obstacle_value : Int} {goal current start : Cell} {B : Nat}
    (hrect : Rectangular grid) (hrows : rows = rowsOf grid) (hcols : cols = colsOf grid)
    (hB : B = rows.toNat * cols.toNat + 2) :
    ∀ (ds : List (Int × Int)) (st : PFState), (∀ d ∈ ds, d ∈ directions) →
      SearchInv grid rows cols obstacle_value start st →
      alookup st.g_score current ≠ none →
      ∃ st2, expandDirs grid rows cols obstacle_value goal current ds st = Except.ok st2 ∧
        SearchInv grid rows cols obstacle_value start st2 ∧
        phi rows cols B st2 ≤ phi rows cols B st := by
  intro ds
  induction ds with
  | nil =>
    intro st _ hinv _
    exact ⟨st, rfl, hinv, le_refl _⟩
  | cons d ds ih =>
    intro st hds hinv hcur
    obtain ⟨st1, hstep, hinv1, hphi1, hlook⟩ :=
      expandStep_ok hrect hrows hcols hinv hcur (hds d (List.mem_cons_self _ _)) hB
    obtain ⟨st2, hrun, hinv2, hphi2⟩ :=
      ih st1 (fun x hx => hds x (List.mem_cons_of_mem _ hx)) hinv1 (by rw [hlook]; exact hcur)
    refine ⟨st2, ?_, hinv2, le_trans hphi2 hphi1⟩
    rw [expandDirs_cons hstep]
    exact hrun

theorem SearchInv_pop_close
    {grid : Grid} {rows cols obstacle_value : Int} {start : Cell}
    {st : PFState} {entry : Int × Cell}
    (hinv : SearchInv grid rows cols obstacle_value start st)
    (he : entry ∈ st.open_set) :
    SearchInv grid rows cols obstacle_value start
      { st with open_set := st.open_set.erase entry,
                closed_set := st.closed_set.insert entry.2 } := by
  refine ⟨hinv.cf_adj, hinv.cf_g, hinv.g_start, hinv.cf_start, hinv.g_cf, hinv.g_bounds,
    ?_, ?_, hinv.g_cell, hinv.g_reach, ?_⟩ <;> dsimp only
  · intro e hee
    exact hinv.open_g e (List.erase_subset _ _ hee)
  · intro n hn
    rcases hinv.g_oc n hn with ⟨e, hee, he2⟩ | hcl
    · rcases mem_erase_or_eq entry hee with h | h
      · exact Or.inl ⟨e, h, he2⟩
      · right
        have hn2 : n = entry.2 := by rw [← he2, h]
        rw [hn2]
        exact List.mem_insert_self _ _
    · exact Or.inr (List.mem_insert_of_mem hcl)
  · rcases hinv.start_oc with ⟨e, hee, he2⟩ | hcl
    · rcases mem_erase_or_eq entry hee with h | h
      · exact Or.inl ⟨e, h, he2⟩
      · right
        have hn2 : start = entry.2 := by rw [← he2, h]
        rw [hn2]
        exact List.mem_insert_self _ _
    · exact Or.inr (List.mem_insert_of_mem hcl)

theorem phi_pop {rows cols : Int} {B : Nat} {st : PFState} {entry : Int × Cell}
    (cs : List Cell) (he : entry ∈ st.open_set) :
    phi rows cols B { st with open_set := st.open_set.erase entry, closed_set := cs } + 1 ≤
      phi rows cols B st := by
  have hsum : (∑ c ∈ cellsF rows cols,
      potAt B { st with open_set := st.open_set.erase entry, closed_set := cs } c)
      = ∑ c ∈ cellsF rows cols, potAt B st c := rfl
  unfold phi
  dsimp only
  rw [hsum, List.length_erase_of_mem he]
  have hpos : 0 < st.open_set.length := List.length_pos_of_mem he
  omega

theorem walkBack_ok {grid : Grid} {rows cols obstacle_value : Int} {start : Cell} {st : PFState}
    (hinv : SearchInv grid rows cols obstacle_value start st) :
    ∀ (fuel : Nat) (current : Cell) (gcv : Int) (acc : List Cell),
      alookup st.g_score current = some gcv → gcv.toNat ≤ fuel →
      ∃ L r, walkBack st.came_from fuel current acc = some (acc ++ L) ∧
        CFChain st.came_from current L r := by
  intro fuel
  induction fuel with
  | zero =>
    intro current gcv acc hg hf
    cases hcf : alookup st.came_from current with
    | none =>
      refine ⟨[], current, ?_, CFChain.nil hcf⟩
      rw [List.append_nil, walkBack, hcf]
    | some prev =>
      obtain ⟨gn, gp, hgn, hgp, hlt⟩ := hinv.cf_g current prev hcf
      rw [hg] at hgn
      injection hgn with hgn
      obtain ⟨hgp0, _⟩ := hinv.g_bounds prev gp hgp
      omega
  | succ fuel ih =>
    intro current gcv acc hg hf
    cases hcf : alookup st.came_from current with
    | none =>
      refine ⟨[], current, ?_, CFChain.nil hcf⟩
      rw [List.append_nil, walkBack, hcf]
    | some prev =>
      obtain ⟨gn, gp, hgn, hgp, hlt⟩ := hinv.cf_g current prev hcf
      rw [hg] at hgn
      injection hgn with hgn
      obtain ⟨hgp0, _⟩ := hinv.g_bounds prev gp hgp
      obtain ⟨L, r, hwalk, hchain⟩ := ih prev gp (acc ++ [current]) hgp (by omega)
      refine ⟨current :: L, r, ?_, CFChain.cons hcf hchain⟩
      rw [walkBack, hcf]
      show walkBack st.came_from fuel prev (acc ++ [current]) = some (acc ++ current :: L)
      rw [hwalk, List.append_assoc]
      rfl

theorem CFChain_cells {cf : List (Cell × Cell)} {c r : Cell} {L : List Cell}
    (h : CFChain cf c L r) : ∀ x ∈ L, alookup cf x ≠ none := by
  induction h with
  | nil hcf => simp
  | cons hcf hch ih =>
    intro x hx
    rcases List.mem_cons.mp hx with h1 | h1
    · subst h1
      rw [hcf]
      simp
    · exact ih x h1

theorem CFChain_root {cf : List (Cell × Cell)} {c r : Cell} {L : List Cell}
    (h : CFChain cf c L r) : alookup cf r = none := by
  induction h with
  | nil hcf => exact hcf
  | cons hcf hch ih => exact ih

theorem CFChain_root_g {grid : Grid} {rows cols obstacle_value : Int} {start : Cell}
    {st : PFState} (hinv : SearchInv grid rows cols obstacle_value start st)
    {c r : Cell} {L : List Cell}
    (h : CFChain st.came_from c L r) (hg : alookup st.g_score c ≠ none) :
    alookup st.g_score r ≠ none := by
  induction h with
  | nil hcf => exact hg
  | cons hcf hch ih =>
    obtain ⟨gn, gp, hgn, hgp, hlt⟩ := hinv.cf_g _ _ hcf
    exact ih (by rw [hgp]; simp)

theorem CFChain_shape {cf : List (Cell × Cell)} {c r : Cell} {L : List Cell}
    (h : CFChain cf c L r) : (L = [] ∧ c = r) ∨ ∃ L2, L = c :: L2 := by
  cases h with
  | nil hcf => exact Or.inl ⟨rfl, rfl⟩
  | cons hcf hch => exact Or.inr ⟨_, rfl⟩

theorem CFChain_edge_chain {cf : List (Cell × Cell)} {c r : Cell} {L : List Cell}
    (h : CFChain cf c L r) :
    List.Chain' (fun a b => alookup cf a = some b) (L ++ [r]) := by
  induction h with
  | nil hcf => simp
  | cons hcf hch ih =>
    rw [List.cons_append, List.chain'_cons']
    refine ⟨?_, ih⟩
    intro b hb
    cases hch with
    | nil hr =>
      simp at hb
      subst hb
      exact hcf
    | cons h2 h3 =>
      simp at hb
      subst hb
      exact hcf

theorem CFChain_gval {grid : Grid} {rows cols obstacle_value : Int} {start : Cell}
    {st : PFState} (hinv : SearchInv grid rows cols obstacle_value start st)
    {c r : Cell} {L : List Cell}
    (h : CFChain st.came_from c L r) (hg : alookup st.g_score c ≠ none) :
    List.Chain' (fun a b => gval st b < gval st a) (L ++ [r]) := by
  induction h with
  | nil hcf => simp
  | cons hcf hch ih =>
    obtain ⟨gn, gp, hgn, hgp, hlt⟩ := hinv.cf_g _ _ hcf
    rw [List.cons_append, List.chain'_cons']
    refine ⟨?_, ih (by rw [hgp]; simp)⟩
    intro b hb
    cases hch with
    | nil hr =>
      simp at hb
      subst hb
      unfold gval
      rw [hgn, hgp]
      simpa using hlt
    | cons h2 h3 =>
      simp at hb
      subst hb
      unfold gval
      rw [hgn, hgp]
      simpa using hlt

theorem reconstruct_ok {grid : Grid} {rows cols obstacle_value : Int} {start goal : Cell}
    {st : PFState} {gg : Int}
    (hinv : SearchInv grid rows cols obstacle_value start st)
    (hgg : alookup st.g_score goal = some gg) :
    ∃ p, reconstructPath st.came_from start goal = some p ∧
      PathOK grid rows cols obstacle_value start goal p := by
  have hfuel : gg.toNat ≤ st.came_from.length := by
    have hb := hinv.g_bounds goal gg hgg
    have hsub : (gKeys st).toFinset ⊆ insert start (st.came_from.map Prod.fst).toFinset := by
      intro a ha
      rw [List.mem_toFinset] at ha
      rcases hinv.g_cf a (alookup_ne_none_iff.mpr ha) with h | h
      · rw [h]
        exact Finset.mem_insert_self _ _
      · exact Finset.mem_insert_of_mem (List.mem_toFinset.mpr (alookup_ne_none_iff.mp h))
    have hc1 : gKeysCard st ≤ (st.came_from.map Prod.fst).toFinset.card + 1 :=
      le_trans (Finset.card_le_card hsub) (Finset.card_insert_le _ _)
    have hc2 : (st.came_from.map Prod.fst).toFinset.card ≤ st.came_from.length := by
      calc (st.came_from.map Prod.fst).toFinset.card
          ≤ (st.came_from.map Prod.fst).length := List.toFinset_card_le _
        _ = st.came_from.length := List.length_map _ _
    obtain ⟨hb1, hb2⟩ := hb
    unfold gKeysCard at hb2 hc1
    omega
  obtain ⟨L, r, hwalk, hchain⟩ := walkBack_ok hinv st.came_from.length goal gg [] hgg hfuel
  have hrg : alookup st.g_score r ≠ none := CFChain_root_g hinv hchain (by rw [hgg]; simp)
  have hrcf : alookup st.came_from r = none := CFChain_root hchain
  have hrs : start = r := by
    rcases hinv.g_cf r hrg with h | h
    · exact h.symm
    · exact absurd hrcf h
  subst hrs
  refine ⟨(L ++ [start]).reverse, ?_, ?_, ?_, ?_, ?_, ?_⟩
  · unfold reconstructPath
    rw [hwalk]
    simp
  · rw [List.head?_reverse]
    exact List.getLast?_concat _
  · rw [List.getLast?_reverse]
    rcases CFChain_shape hchain with ⟨hL, hcr⟩ | ⟨L2, hL⟩
    · subst hL
      rw [hcr]
      simp
    · subst hL
      simp
  · rw [List.chain'_reverse]
    exact List.Chain'.imp (fun a b hab => hinv.cf_adj a b hab) (CFChain_edge_chain hchain)
  · rw [List.nodup_reverse]
    have hgchain := CFChain_gval hinv hchain (by rw [hgg]; simp)
    haveI ht : IsTrans Cell (fun a b : Cell => gval st b < gval st a) :=
      ⟨fun a b c h1 h2 => lt_trans h2 h1⟩
    have hpair : List.Pairwise (fun a b : Cell => gval st b < gval st a) (L ++ [start]) := by
      rw [← List.chain'_iff_pairwise]
      exact hgchain
    exact hpair.imp (fun hab => by
      intro heq
      rw [heq] at hab
      exact lt_irrefl _ hab)
  · intro c hc
    rw [List.mem_reverse] at hc
    rcases List.mem_append.mp hc with h | h
    · have hcf := CFChain_cells hchain c h
      have hg : alookup st.g_score c ≠ none := by
        cases hx : alookup st.came_from c with
        | none => exact absurd hx hcf
        | some p =>
          obtain ⟨gn, gp, hgn, _, _⟩ := hinv.cf_g c p hx
          rw [hgn]
          simp
      exact hinv.g_cell c hg
    · left
      simpa using h

theorem searchLoop_empty {grid : Grid} {rows cols obstacle_value : Int} {start goal : Cell}
    {fuel : Nat} {st : PFState} (hpop : popMin st.open_set = none) :
    searchLoop grid rows cols obstacle_value start goal (fuel + 1) st = (PFResult.noPath, st) := by
  rw [searchLoop, hpop]

theorem searchLoop_goal {grid : Grid} {rows cols obstacle_value : Int} {start goal : Cell}
    {fuel : Nat} {st : PFState} {entry : Int × Cell} {rest : List (Int × Cell)} {p : List Cell}
    (hpop : popMin st.open_set = some (entry, rest))
    (hgoal : entry.2 = goal)
    (hrec : reconstructPath st.came_from start entry.2 = some p) :
    searchLoop grid rows cols obstacle_value start goal (fuel + 1) st = (PFResult.path p, st) := by
  rw [searchLoop, hpop]
  dsimp only
  rw [if_pos hgoal, hrec]

theorem searchLoop_step {grid : Grid} {rows cols obstacle_value : Int} {start goal : Cell}
    {fuel : Nat} {st st2 : PFState} {entry : Int × Cell} {rest : List (Int × Cell)}
    (hpop : popMin st.open_set = some (entry, rest))
    (hgoal : ¬(entry.2 = goal))
    (hexp : expandDirs grid rows cols obstacle_value goal entry.2 directions
      { st with open_set := rest, closed_set := st.closed_set.insert entry.2 } = Except.ok st2) :
    searchLoop grid rows cols obstacle_value start goal (fuel + 1) st =
      searchLoop grid rows cols obstacle_value start goal fuel st2 := by
  rw [searchLoop, hpop]
  dsimp only
  rw [if_neg hgoal, hexp]

theorem searchLoop_master
    {grid : Grid} {rows cols obstacle_value : Int} {start goal : Cell} {B : Nat}
    (hrect : Rectangular grid) (hrows : rows = rowsOf grid) (hcols : cols = colsOf grid)
    (hB : B = rows.toNat * cols.toNat + 2) :
    ∀ (fuel : Nat) (st : PFState), SearchInv grid rows cols obstacle_value start st →
      phi rows cols B st < fuel →
      (∃ stf, searchLoop grid rows cols obstacle_value start goal fuel st =
        (PFResult.noPath, stf)) ∨
      (∃ p stf, searchLoop grid rows cols obstacle_value start goal fuel st =
          (PFResult.path p, stf) ∧
        PathOK grid rows cols obstacle_value start goal p ∧
        Reachable grid rows cols obstacle_value start goal ∧
        (goal = start ∨ (InBoundsC rows cols goal ∧
          gridGet grid goal.1 goal.2 ≠ some obstacle_value))) := by
  intro fuel
  induction fuel with
  | zero =>
    intro st _ hphi
    exact absurd hphi (Nat.not_lt_zero _)
  | succ fuel ih =>
    intro st hinv hphi
    cases hpop : popMin st.open_set with
    | none =>
      left
      exact ⟨st, searchLoop_empty hpop⟩
    | some pr =>
      obtain ⟨entry, rest⟩ := pr
      obtain ⟨hmem, hrest⟩ := popMin_spec hpop
      subst hrest
      have hcurg : alookup st.g_score entry.2 ≠ none := hinv.open_g entry hmem
      by_cases hgoal : entry.2 = goal
      · obtain ⟨gg, hgg⟩ : ∃ gg, alookup st.g_score goal = some gg := by
          rw [hgoal] at hcurg
          cases hx : alookup st.g_score goal
          · exact absurd hx hcurg
          · exact ⟨_, rfl⟩
        obtain ⟨p, hrec, hpok⟩ := reconstruct_ok hinv hgg
        right
        refine ⟨p, st, searchLoop_goal hpop hgoal (by rw [hgoal]; exact hrec), hpok, ?_, ?_⟩
        · exact hinv.g_reach goal (by rw [hgg]; simp)
        · exact hinv.g_cell goal (by rw [hgg]; simp)
      · have hinv1 := SearchInv_pop_close hinv hmem
        have hphi1 := @phi_pop rows cols B st entry (st.closed_set.insert entry.2) hmem
        obtain ⟨st2, hexp, hinv2, hphi2⟩ :=
          expandDirs_ok hrect hrows hcols hB directions _ (fun d hd => hd) hinv1 hcurg
        have hphi3 : phi rows cols B st2 < fuel := by omega
        rcases ih st2 hinv2 hphi3 with ⟨stf, hf⟩ | ⟨p, stf, hf, hrest2⟩
        · left
          exact ⟨stf, by rw [searchLoop_step hpop hgoal hexp]; exact hf⟩
        · right
          exact ⟨p, stf, by rw [searchLoop_step hpop hgoal hexp]; exact hf, hrest2⟩

theorem SearchInv_init {grid : Grid} {rows cols obstacle_value : Int} {start goal : Cell} :
    SearchInv grid rows cols obstacle_value start (initState start goal) := by
  refine ⟨?_, ?_, ?_, ?_, ?_, ?_, ?_, ?_, ?_, ?_, ?_⟩ <;> dsimp only [initState]
  · intro n p h
    simp [alookup] at h
  · intro n p h
    simp [alookup] at h
  · rw [alookup_cons, if_pos rfl]
  · rfl
  · intro n hn
    rw [alookup_cons] at hn
    by_cases h : n = start
    · exact Or.inl h
    · rw [if_neg h] at hn
      simp [alookup] at hn
  · intro n gn hgn
    rw [alookup_cons] at hgn
    by_cases h : n = start
    · rw [if_pos h] at hgn
      injection hgn with hgn
      subst hgn
      have h1 : gKeysCard (initState start goal) = 1 := by
        simp [gKeysCard, gKeys, initState]
      refine ⟨by omega, ?_⟩
      show (0 : Int) < (gKeysCard (initState start goal) : Int)
      rw [h1]
      omega
    · rw [if_neg h] at hgn
      simp [alookup] at hgn
  · intro e he
    simp only [List.mem_singleton] at he
    subst he
    rw [alookup_cons, if_pos rfl]
    simp
  · intro n hn
    rw [alookup_cons] at hn
    by_cases h : n = start
    · subst h
      exact Or.inl ⟨_, List.mem_singleton_self _, rfl⟩
    · rw [if_neg h] at hn
      simp [alookup] at hn
  · intro n hn
    rw [alookup_cons] at hn
    by_cases h : n = start
    · exact Or.inl h
    · rw [if_neg h] at hn
      simp [alookup] at hn
  · intro n hn
    rw [alookup_cons] at hn
    by_cases h : n = start
    · subst h
      exact Reachable.refl
    · rw [if_neg h] at hn
      simp [alookup] at hn
  · exact Or.inl ⟨_, List.mem_singleton_self _, rfl⟩

theorem phi_init_lt {rows cols : Int} {B : Nat} {start goal : Cell}
    (hB : B = rows.toNat * cols.toNat + 2) :
    phi rows cols B (initState start goal) <
      (rows.toNat * cols.toNat + 2) * (rows.toNat * cols.toNat + 2) := by
  have hpt : ∀ x, potAt B (initState start goal) x ≤ B := by
    intro x
    unfold potAt
    dsimp only [initState]
    rw [alookup_cons]
    by_cases h : x = start
    · rw [if_pos h]
      show (0 : Int).toNat ≤ B
      omega
    · rw [if_neg h]
      show B ≤ B
      exact le_refl B
  have hsum : (∑ c ∈ cellsF rows cols, potAt B (initState start goal) c) ≤
      (cellsF rows cols).card • B :=
    Finset.sum_le_card_nsmul _ _ _ (fun x _ => hpt x)
  have hcard := cellsF_card rows cols
  have hopen : (initState start goal).open_set.length = 1 := rfl
  unfold phi
  rw [hopen]
  rw [smul_eq_mul] at hsum
  subst hB
  rw [hcard] at hsum
  have hring : (rows.toNat * cols.toNat + 2) * (rows.toNat * cols.toNat + 2) =
      rows.toNat * cols.toNat * (rows.toNat * cols.toNat + 2) + 2 * (rows.toNat * cols.toNat) + 4 := by
    ring
  omega

theorem pathfinder_master {grid : Grid} {start goal : Cell} {obstacle_value : Int}
    (hrect : Rectangular grid) :
    (pathfinder grid start goal obstacle_value).1 = PFResult.noPath ∨
    (∃ p, (pathfinder grid start goal obstacle_value).1 = PFResult.path p ∧
      PathOK grid (rowsOf grid) (colsOf grid) obstacle_value start goal p ∧
      Reachable grid (rowsOf grid) (colsOf grid) obstacle_value start goal ∧
      (goal = start ∨ (InBoundsC (rowsOf grid) (colsOf grid) goal ∧
        gridGet grid goal.1 goal.2 ≠ some obstacle_value))) := by
  obtain ⟨r0, rest, hgrid⟩ : ∃ r0 rest, grid = r0 :: rest := by
    cases grid with
    | nil => exact absurd rfl hrect.1
    | cons a l => exact ⟨a, l, rfl⟩
  subst hgrid
  have hpf : pathfinder (r0 :: rest) start goal obstacle_value =
      ((searchLoop (r0 :: rest) (rowsOf (r0 :: rest)) (colsOf (r0 :: rest)) obstacle_value
        start goal (searchFuel (r0 :: rest)) (initState start goal)).1,
       (searchLoop (r0 :: rest) (rowsOf (r0 :: rest)) (colsOf (r0 :: rest)) obstacle_value
        start goal (searchFuel (r0 :: rest)) (initState start goal)).2.events) := rfl
  have h1 : (rowsOf (r0 :: rest)).toNat = (r0 :: rest).length := by
    unfold rowsOf
    exact Int.toNat_natCast _
  have h2 : (colsOf (r0 :: rest)).toNat = r0.length := by
    unfold colsOf
    exact Int.toNat_natCast _
  have hfuelphi : phi (rowsOf (r0 :: rest)) (colsOf (r0 :: rest))
      ((rowsOf (r0 :: rest)).toNat * (colsOf (r0 :: rest)).toNat + 2) (initState start goal) <
      searchFuel (r0 :: rest) := by
    have hlt := @phi_init_lt (rowsOf (r0 :: rest)) (colsOf (r0 :: rest))
      ((rowsOf (r0 :: rest)).toNat * (colsOf (r0 :: rest)).toNat + 2) start goal rfl
    unfold searchFuel
    rw [h1, h2] at hlt
    exact hlt
  rcases searchLoop_master hrect rfl rfl rfl (searchFuel (r0 :: rest)) (initState start goal)
      SearchInv_init hfuelphi with ⟨stf, hf⟩ | ⟨p, stf, hf, hrest2⟩
  · left
    rw [hpf]
    dsimp only
    rw [hf]
  · right
    refine ⟨p, ?_, hrest2.1, hrest2.2.1, hrest2.2.2⟩
    rw [hpf]
    dsimp only
    rw [hf]

theorem expandStep_good {grid : Grid} {rows cols obstacle_value : Int} {goal current : Cell}
    {d : Int × Int} {st st2 : PFState}
    (hst : ∀ e ∈ st.events, GoodEvent rows cols e)
    (hres : expandStep grid rows cols obstacle_value goal current d st = Except.ok st2 ∨
      expandStep grid rows cols obstacle_value goal current d st = Except.error st2) :
    ∀ e ∈ st2.events, GoodEvent rows cols e := by
  revert hres
  simp only [expandStep]
  dsimp only
  split
  case isTrue hbnd =>
    have hgood : ∀ e ∈ (GridEvent.read (current.1 + d.1) (current.2 + d.2) :: st.events),
        GoodEvent rows cols e := by
      intro e he
      rcases List.mem_cons.mp he with h | h
      · subst h
        exact ⟨_, _, rfl, hbnd.1, hbnd.2.1, hbnd.2.2.1, hbnd.2.2.2⟩
      · exact hst e h
    split
    case h_1 heq =>
      intro hres
      rcases hres with h | h
      · exact absurd h (by simp)
      · injection h with h
        subst h
        exact hgood
    case h_2 v heq =>
      split
      case isTrue hvo =>
        intro hres
        rcases hres with h | h
        · injection h with h
          subst h
          exact hgood
        · exact absurd h (by simp)
      case isFalse hvo =>
        split
        case isTrue hcl =>
          intro hres
          rcases hres with h | h
          · injection h with h
            subst h
            exact hgood
          · exact absurd h (by simp)
        case isFalse hcl =>
          split
          case isTrue hcond =>
            intro hres
            rcases hres with h | h
            · injection h with h
              subst h
              exact hgood
            · exact absurd h (by simp)
          case isFalse hcond =>
            intro hres
            rcases hres with h | h
            · injection h with h
              subst h
              exact hgood
            · exact absurd h (by simp)
  case isFalse hbnd =>
    intro hres
    rcases hres with h | h
    · injection h with h
      subst h
      exact hst
    · exact absurd h (by simp)

theorem expandDirs_good {grid : Grid} {rows cols obstacle_value : Int} {goal current : Cell} :
    ∀ (ds : List (Int × Int)) (st st2 : PFState),
      (∀ e ∈ st.events, GoodEvent rows cols e) →
      (expandDirs grid rows cols obstacle_value goal current ds st = Except.ok st2 ∨
        expandDirs grid rows cols obstacle_value goal current ds st = Except.error st2) →
      ∀ e ∈ st2.events, GoodEvent rows cols e := by
  intro ds
  induction ds with
  | nil =>
    intro st st2 hst hres
    rcases hres with h | h
    · rw [expandDirs] at h
      injection h with h
      subst h
      exact hst
    · rw [expandDirs] at h
      exact absurd h (by simp)
  | cons d ds ih =>
    intro st st2 hst hres
    cases hstep : expandStep grid rows cols obstacle_value goal current d st with
    | error st1 =>
      have herr : expandDirs grid rows cols obstacle_value goal current (d :: ds) st =
          Except.error st1 := by
        rw [expandDirs, hstep]
      rcases hres with h | h
      · rw [herr] at h
        exact absurd h (by simp)
      · rw [herr] at h
        injection h with h
        subst h
        exact expandStep_good hst (Or.inr hstep)
    | ok st1 =>
      rw [expandDirs_cons hstep] at hres
      exact ih st1 st2 (expandStep_good hst (Or.inl hstep)) hres

theorem searchLoop_good {grid : Grid} {rows cols obstacle_value : Int} {start goal : Cell} :
    ∀ (fuel : Nat) (st : PFState), (∀ e ∈ st.events, GoodEvent rows cols e) →
      ∀ e ∈ (searchLoop grid rows cols obstacle_value start goal fuel st).2.events,
        GoodEvent rows cols e := by
  intro fuel
  induction fuel with
  | zero =>
    intro st hst
    exact hst
  | succ fuel ih =>
    intro st hst
    rw [searchLoop]
    cases hpop : popMin st.open_set with
    | none => exact hst
    | some pr =>
      obtain ⟨entry, rest⟩ := pr
      dsimp only
      split
      · split
        · exact hst
        · exact hst
      · cases hexp : expandDirs grid rows cols obstacle_value goal entry.2 directions
            { st with open_set := rest, closed_set := st.closed_set.insert entry.2 } with
        | error st2 =>
          exact expandDirs_good directions
            { st with open_set := rest, closed_set := st.closed_set.insert entry.2 }
            st2 hst (Or.inr hexp)
        | ok st2 =>
          exact ih st2 (expandDirs_good directions
            { st with open_set := rest, closed_set := st.closed_set.insert entry.2 }
            st2 hst (Or.inl hexp))

theorem pathfinder_good {grid : Grid} {start goal : Cell} {obstacle_value : Int} :
    ∀ e ∈ (pathfinder grid start goal obstacle_value).2,
      GoodEvent (rowsOf grid) (colsOf grid) e := by
  cases grid with
  | nil =>
    intro e he
    simp [pathfinder] at he
  | cons r0 rest =>
    intro e he
    have hpf : (pathfinder (r0 :: rest) start goal obstacle_value).2 =
        (searchLoop (r0 :: rest) (rowsOf (r0 :: rest)) (colsOf (r0 :: rest)) obstacle_value
          start goal (searchFuel (r0 :: rest)) (initState start goal)).2.events := rfl
    rw [hpf] at he
    refine searchLoop_good _ (initState start goal) ?_ e he
    intro e2 he2
    simp [initState] at he2

theorem applyEvents_reads {grid : Grid} {evs : List GridEvent}
    (h : ∀ e ∈ evs, ∃ r c, e = GridEvent.read r c) : applyEvents grid evs = grid := by
  induction evs with
  | nil => rfl
  | cons e es ih =>
    obtain ⟨r, c, heq⟩ := h e (List.mem_cons_self _ _)
    subst heq
    show applyEvents grid es = grid
    exact ih (fun e2 he2 => h e2 (List.mem_cons_of_mem _ he2))

/-! Geometry of the canonical monotone path (`beam`). On an obstacle-free
grid the search is shown below to pop exactly the cells of this path. -/

theorem sign_cases (d : Int) :
    (d < 0 ∧ d.sign = -1) ∨ (d = 0 ∧ d.sign = 0) ∨ (0 < d ∧ d.sign = 1) := by
  rcases lt_trichotomy d 0 with h | h | h
  · exact Or.inl ⟨h, Int.sign_eq_neg_one_of_neg h⟩
  · exact Or.inr (Or.inl ⟨h, by rw [h]; rfl⟩)
  · exact Or.inr (Or.inr ⟨h, Int.sign_eq_one_of_pos h⟩)

theorem natAbs_sub_sign (d : Int) : (d - d.sign).natAbs = d.natAbs - 1 := by
  rcases sign_cases d with ⟨h, hs⟩ | ⟨h, hs⟩ | ⟨h, hs⟩ <;> rw [hs] <;> omega

theorem sign_natAbs_le (d : Int) : d.sign.natAbs ≤ 1 := by
  rcases sign_cases d with ⟨_, hs⟩ | ⟨_, hs⟩ | ⟨_, hs⟩ <;> rw [hs] <;> decide

theorem beam_succ (s t : Cell) (i : Nat) : beam s t (i + 1) = beamStep t (beam s t i) := rfl

theorem beam_facts (s t : Cell) : ∀ i : Nat,
    (t.1 - (beam s t i).1).natAbs = (t.1 - s.1).natAbs - i ∧
    (t.2 - (beam s t i).2).natAbs = (t.2 - s.2).natAbs - i ∧
    ((beam s t i).1 - s.1).natAbs ≤ i ∧ ((beam s t i).2 - s.2).natAbs ≤ i := by
  intro i
  induction i with
  | zero => simp [beam]
  | succ i ih =>
    obtain ⟨h1, h2, h3, h4⟩ := ih
    have e1 : t.1 - (beam s t (i + 1)).1 =
        (t.1 - (beam s t i).1) - (t.1 - (beam s t i).1).sign := by
      rw [beam_succ]
      unfold beamStep
      dsimp only
      ring
    have e2 : t.2 - (beam s t (i + 1)).2 =
        (t.2 - (beam s t i).2) - (t.2 - (beam s t i).2).sign := by
      rw [beam_succ]
      unfold beamStep
      dsimp only
      ring
    have g1 : (beam s t (i + 1)).1 - s.1 =
        ((beam s t i).1 - s.1) + (t.1 - (beam s t i).1).sign := by
      rw [beam_succ]
      unfold beamStep
      dsimp only
      ring
    have g2 : (beam s t (i + 1)).2 - s.2 =
        ((beam s t i).2 - s.2) + (t.2 - (beam s t i).2).sign := by
      rw [beam_succ]
      unfold beamStep
      dsimp only
      ring
    have f1 := natAbs_sub_sign (t.1 - (beam s t i).1)
    have f2 := natAbs_sub_sign (t.2 - (beam s t i).2)
    have sb1 := sign_natAbs_le (t.1 - (beam s t i).1)
    have sb2 := sign_natAbs_le (t.2 - (beam s t i).2)
    refine ⟨?_, ?_, ?_, ?_⟩
    · rw [e1, f1, h1]; omega
    · rw [e2, f2, h2]; omega
    · rw [g1]; omega
    · rw [g2]; omega

theorem chebN_beam_t (s t : Cell) (i : Nat) : chebN (beam s t i) t = chebN s t - i := by
  obtain ⟨h1, h2, _, _⟩ := beam_facts s t i
  unfold chebN
  omega

theorem beam_hits (s t : Cell) : beam s t (chebN s t) = t := by
  obtain ⟨h1, h2, _, _⟩ := beam_facts s t (chebN s t)
  unfold chebN at h1 h2
  have e1 : (beam s t (chebN s t)).1 = t.1 := by unfold chebN; omega
  have e2 : (beam s t (chebN s t)).2 = t.2 := by unfold chebN; omega
  exact Prod.ext e1 e2

theorem chebN_s_beam (s t : Cell) (i : Nat) (hi : i ≤ chebN s t) :
    chebN s (beam s t i) = i := by
  obtain ⟨h1, h2, h3, h4⟩ := beam_facts s t i
  unfold chebN at hi ⊢
  omega

theorem beam_add (s t : Cell) (j : Nat) : ∀ k : Nat, beam s t (j + k) = beam (beam s t j) t k := by
  intro k
  induction k with
  | zero => rfl
  | succ k ih =>
    have e : j + (k + 1) = (j + k) + 1 := by omega
    rw [e, beam_succ, ih, beam_succ]

theorem chebN_beam_beam (s t : Cell) (j k : Nat) (h : j + k ≤ chebN s t) :
    chebN (beam s t j) (beam s t (j + k)) = k := by
  rw [beam_add]
  apply chebN_s_beam
  rw [chebN_beam_t]
  omega

theorem chebN_self (a : Cell) : chebN a a = 0 := by
  unfold chebN
  omega

theorem beam_ne (s t : Cell) {j l : Nat} (h : j < l) (hl : l ≤ chebN s t) :
    beam s t j ≠ beam s t l := by
  intro heq
  have h2 := chebN_beam_beam s t j (l - j) (by omega)
  have e : j + (l - j) = l := by omega
  rw [e, ← heq, chebN_self] at h2
  omega

theorem mem_directions_bounds {d : Int × Int} (hd : d ∈ directions) :
    (d.1 = -1 ∨ d.1 = 0 ∨ d.1 = 1) ∧ (d.2 = -1 ∨ d.2 = 0 ∨ d.2 = 1) ∧
      ¬(d.1 = 0 ∧ d.2 = 0) := by
  obtain ⟨d1, d2⟩ := d
  simp only [directions, List.mem_cons, List.not_mem_nil, or_false, Prod.mk.injEq] at hd
  rcases hd with ⟨h1, h2⟩ | ⟨h1, h2⟩ | ⟨h1, h2⟩ | ⟨h1, h2⟩ | ⟨h1, h2⟩ | ⟨h1, h2⟩ |
    ⟨h1, h2⟩ | ⟨h1, h2⟩ <;> subst h1 <;> subst h2 <;> norm_num

theorem mem_directions_of_bounds {d : Int × Int}
    (h1 : d.1 = -1 ∨ d.1 = 0 ∨ d.1 = 1) (h2 : d.2 = -1 ∨ d.2 = 0 ∨ d.2 = 1)
    (hz : ¬(d.1 = 0 ∧ d.2 = 0)) : d ∈ directions := by
  obtain ⟨d1, d2⟩ := d
  dsimp only at h1 h2 hz
  rcases h1 with h | h | h <;> rcases h2 with g | g | g <;> subst h <;> subst g <;>
    revert hz <;> decide

theorem adjacent_chebN {c n : Cell} (h : Adjacent c n) : chebN c n = 1 := by
  have hb := mem_directions_bounds h
  dsimp only at hb
  unfold chebN
  omega

theorem beam_adjacent (s t : Cell) (i : Nat) (hi : i < chebN s t) :
    Adjacent (beam s t i) (beam s t (i + 1)) := by
  have hcheb : chebN (beam s t i) t = chebN s t - i := chebN_beam_t s t i
  unfold Adjacent
  rw [beam_succ]
  unfold beamStep
  dsimp only
  have e1 : (beam s t i).1 + (t.1 - (beam s t i).1).sign - (beam s t i).1 =
      (t.1 - (beam s t i).1).sign := by ring
  have e2 : (beam s t i).2 + (t.2 - (beam s t i).2).sign - (beam s t i).2 =
      (t.2 - (beam s t i).2).sign := by ring
  rw [e1, e2]
  apply mem_directions_of_bounds
  · rcases sign_cases (t.1 - (beam s t i).1) with ⟨_, hs⟩ | ⟨_, hs⟩ | ⟨_, hs⟩ <;> rw [hs] <;> simp
  · rcases sign_cases (t.2 - (beam s t i).2) with ⟨_, hs⟩ | ⟨_, hs⟩ | ⟨_, hs⟩ <;> rw [hs] <;> simp
  · rintro ⟨hz1, hz2⟩
    rw [Int.sign_eq_zero_iff_zero] at hz1 hz2
    have h0 : chebN (beam s t i) t = 0 := by
      unfold chebN
      omega
    rw [chebN_beam_t] at h0
    omega

theorem beam_inbounds (rows cols : Int) (s t : Cell) (i : Nat) (hi : i ≤ chebN s t)
    (hs : InBoundsC rows cols s) (ht : InBoundsC rows cols t) :
    InBoundsC rows cols (beam s t i) := by
  obtain ⟨h1, h2, h3, h4⟩ := beam_facts s t i
  unfold chebN at hi
  unfold InBoundsC at hs ht ⊢
  omega

theorem manhattan_eq_manN (a b : Cell) : manhattan_distance a b = (manN a b : Int) := by
  unfold manhattan_distance manN
  rw [Int.abs_eq_natAbs, Int.abs_eq_natAbs]
  push_cast
  ring

theorem chebyshev_eq_chebN (a b : Cell) : chebyshev a b = (chebN a b : Int) := by
  unfold chebyshev chebN
  rw [Int.abs_eq_natAbs, Int.abs_eq_natAbs, Nat.cast_max]

theorem manN_beam (s t : Cell) (i : Nat) :
    manN (beam s t i) t = ((t.1 - s.1).natAbs - i) + ((t.2 - s.2).natAbs - i) := by
  obtain ⟨h1, h2, _, _⟩ := beam_facts s t i
  unfold manN
  omega

theorem neighbor_push_gt (u v d1 d2 : Int)
    (h1 : d1 = -1 ∨ d1 = 0 ∨ d1 = 1) (h2 : d2 = -1 ∨ d2 = 0 ∨ d2 = 1)
    (hne : ¬(d1 = u.sign ∧ d2 = v.sign))
    (hpos : 1 ≤ u.natAbs ∨ 1 ≤ v.natAbs) :
    (u.natAbs - 1) + (v.natAbs - 1) < (u - d1).natAbs + (v - d2).natAbs := by
  rcases sign_cases u with ⟨hu, hsu⟩ | ⟨hu, hsu⟩ | ⟨hu, hsu⟩ <;>
    rcases sign_cases v with ⟨hv, hsv⟩ | ⟨hv, hsv⟩ | ⟨hv, hsv⟩ <;>
    rw [hsu, hsv] at hne <;> omega

/-! The `heapq` minimum: `heapMin` is below every member of the heap, so a
heap whose members all strictly exceed one entry pops exactly that entry. -/

theorem entryLe_refl (a : Int × Cell) : entryLe a a = true := by
  unfold entryLe
  simp

theorem entryLe_total (a b : Int × Cell) : entryLe a b = true ∨ entryLe b a = true := by
  unfold entryLe
  simp only [decide_eq_true_eq]
  rcases lt_trichotomy a.1 b.1 with h | h | h
  · exact Or.inl (Or.inl h)
  · rcases lt_trichotomy a.2.1 b.2.1 with g | g | g
    · exact Or.inl (Or.inr ⟨h, Or.inl g⟩)
    · rcases le_total a.2.2 b.2.2 with k | k
      · exact Or.inl (Or.inr ⟨h, Or.inr ⟨g, k⟩⟩)
      · exact Or.inr (Or.inr ⟨h.symm, Or.inr ⟨g.symm, k⟩⟩)
    · exact Or.inr (Or.inr ⟨h.symm, Or.inl g⟩)
  · exact Or.inr (Or.inl h)

theorem entryLe_trans {a b c : Int × Cell} (h1 : entryLe a b = true) (h2 : entryLe b c = true) :
    entryLe a c = true := by
  unfold entryLe at h1 h2 ⊢
  simp only [decide_eq_true_eq] at h1 h2 ⊢
  rcases h1 with h1 | ⟨e1, r1⟩
  · rcases h2 with h2 | ⟨e2, r2⟩
    · exact Or.inl (by omega)
    · exact Or.inl (by omega)
  · rcases h2 with h2 | ⟨e2, r2⟩
    · exact Or.inl (by omega)
    · refine Or.inr ⟨by omega, ?_⟩
      rcases r1 with r1 | ⟨f1, s1⟩
      · rcases r2 with r2 | ⟨f2, s2⟩
        · exact Or.inl (by omega)
        · exact Or.inl (by omega)
      · rcases r2 with r2 | ⟨f2, s2⟩
        · exact Or.inl (by omega)
        · exact Or.inr ⟨by omega, by omega⟩

theorem heapMin_le (x : Int × Cell) (xs : List (Int × Cell)) :
    ∀ y ∈ x :: xs, entryLe (heapMin x xs) y = true := by
  induction xs generalizing x with
  | nil =>
    intro y hy
    rw [List.mem_singleton] at hy
    subst hy
    rw [heapMin]
    exact entryLe_refl y
  | cons z zs ih =>
    intro y hy
    rw [heapMin]
    cases hxz : entryLe x z with
    | true =>
      rw [if_pos rfl]
      rcases List.mem_cons.mp hy with h | h
      · subst h
        exact ih y y (List.mem_cons_self _ _)
      · rcases List.mem_cons.mp h with h2 | h2
        · subst h2
          exact entryLe_trans (ih x x (List.mem_cons_self _ _)) hxz
        · exact ih x y (List.mem_cons_of_mem _ h2)
    | false =>
      have hzx : entryLe z x = true := by
        rcases entryLe_total x z with h | h
        · rw [h] at hxz
          exact absurd hxz (by simp)
        · exact h
      rw [if_neg (by simp)]
      rcases List.mem_cons.mp hy with h | h
      · subst h
        exact entryLe_trans (ih z z (List.mem_cons_self _ _)) hzx
      · rcases List.mem_cons.mp h with h2 | h2
        · subst h2
          exact ih y y (List.mem_cons_self _ _)
        · exact ih z y (List.mem_cons_of_mem _ h2)

theorem popMin_strict {l : List (Int × Cell)} {e : Int × Cell}
    (hmem : e ∈ l) (hmin : ∀ y ∈ l, y = e ∨ e.1 < y.1) :
    popMin l = some (e, l.erase e) := by
  cases l with
  | nil => cases hmem
  | cons x xs =>
    have hm := heapMin_mem x xs
    have hle := heapMin_le x xs e hmem
    have heq : heapMin x xs = e := by
      rcases hmin _ hm with h | h
      · exact h
      · exfalso
        unfold entryLe at hle
        simp only [decide_eq_true_eq] at hle
        omega
    show some (heapMin x xs, (x :: xs).erase (heapMin x xs)) = some (e, (x :: xs).erase e)
    rw [heq]

theorem obstacleFree_get {grid : Grid} {obstacle_value : Int}
    (hfree : ObstacleFree grid obstacle_value) {r c v : Int}
    (h : gridGet grid r c = some v) : v ≠ obstacle_value := by
  rw [gridGet] at h
  by_cases hrc : 0 ≤ r ∧ 0 ≤ c
  · rw [if_pos hrc] at h
    cases hrow : grid.get? r.toNat with
    | none =>
      rw [hrow] at h
      exact absurd h (by simp)
    | some row =>
      rw [hrow] at h
      have hrm : row ∈ grid := List.get?_mem hrow
      have hvm : v ∈ row := List.get?_mem h
      exact hfree row hrm v hvm
  · rw [if_neg hrc] at h
    exact absurd h (by simp)

theorem adjacent_offset {current : Cell} {d : Int × Int} (hd : d ∈ directions) :
    Adjacent current (current.1 + d.1, current.2 + d.2) := by
  unfold Adjacent
  dsimp only
  have e1 : current.1 + d.1 - current.1 = d.1 := by ring
  have e2 : current.2 + d.2 - current.2 = d.2 := by ring
  rw [e1, e2, Prod.mk.eta]
  exact hd

theorem offset_ne_current {current : Cell} {d : Int × Int} (hd : d ∈ directions) :
    (current.1 + d.1, current.2 + d.2) ≠ current := by
  intro h
  have h1 : current.1 + d.1 = current.1 := congrArg Prod.fst h
  have h2 : current.2 + d.2 = current.2 := congrArg Prod.snd h
  apply mem_directions_ne_zero hd
  have e1 : d.1 = 0 := by omega
  have e2 : d.2 = 0 := by omega
  calc d = (d.1, d.2) := rfl
    _ = (0, 0) := by rw [e1, e2]

/-- On an obstacle-free grid, one neighbor step either leaves the open
set, scores, and predecessors unchanged, or pushes exactly the fresh
in-bounds neighbor with score `gc + 1`; and a fresh in-bounds non-closed
neighbor is always pushed. -/
theorem expandStep_beam
    {grid : Grid} {rows cols obstacle_value : Int} {goal current start : Cell}
    {d : Int × Int} {st st1 : PFState} {gc : Int}
    (hrect : Rectangular grid) (hrows : rows = rowsOf grid) (hcols : cols = colsOf grid)
    (hfree : ObstacleFree grid obstacle_value)
    (hinv : SearchInv grid rows cols obstacle_value start st)
    (hgc : alookup st.g_score current = some gc)
    (hgle : ∀ x gx, alookup st.g_score x = some gx → gx ≤ gc + 1)
    (hstep : expandStep grid rows cols obstacle_value goal current d st = Except.ok st1) :
    st1.closed_set = st.closed_set ∧
    ((st1.open_set = st.open_set ∧ st1.g_score = st.g_score ∧
        st1.came_from = st.came_from) ∨
      (st1.open_set =
          (gc + 1 + manhattan_distance (current.1 + d.1, current.2 + d.2) goal,
            ((current.1 + d.1, current.2 + d.2) : Cell)) :: st.open_set ∧
        st1.g_score = (((current.1 + d.1, current.2 + d.2) : Cell), gc + 1) :: st.g_score ∧
        st1.came_from = (((current.1 + d.1, current.2 + d.2) : Cell), current) :: st.came_from ∧
        alookup st.g_score (current.1 + d.1, current.2 + d.2) = none ∧
        ((current.1 + d.1, current.2 + d.2) : Cell) ∉ st.closed_set ∧
        InBoundsC rows cols (current.1 + d.1, current.2 + d.2) ∧
        ¬∃ e ∈ st.open_set, e.2 = ((current.1 + d.1, current.2 + d.2) : Cell))) ∧
    (InBoundsC rows cols (current.1 + d.1, current.2 + d.2) →
      ((current.1 + d.1, current.2 + d.2) : Cell) ∉ st.closed_set →
      alookup st.g_score (current.1 + d.1, current.2 + d.2) = none →
      st1.open_set =
        (gc + 1 + manhattan_distance (current.1 + d.1, current.2 + d.2) goal,
          ((current.1 + d.1, current.2 + d.2) : Cell)) :: st.open_set) := by
  simp only [expandStep] at hstep
  dsimp only at hstep
  split at hstep
  case isTrue hbnd =>
    split at hstep
    case h_1 heq =>
      exact absurd hstep (by simp)
    case h_2 v heq =>
      have hvfree : v ≠ obstacle_value := obstacleFree_get hfree heq
      split at hstep
      case isTrue hvo =>
        exact absurd hvo hvfree
      case isFalse hvo =>
        split at hstep
        case isTrue hcl =>
          injection hstep with h
          subst h
          refine ⟨rfl, Or.inl ⟨rfl, rfl, rfl⟩, ?_⟩
          intro _ hncl _
          exact absurd hcl hncl
        case isFalse hcl =>
          have hncl : ((current.1 + d.1, current.2 + d.2) : Cell) ∉ st.closed_set := hcl
          split at hstep
          case isTrue hcond =>
            injection hstep with h
            subst h
            have hnog : alookup st.g_score (current.1 + d.1, current.2 + d.2) = none := by
              cases hgn : alookup st.g_score (current.1 + d.1, current.2 + d.2) with
              | none => rfl
              | some gv =>
                exfalso
                rcases (Bool.or_eq_true _ _).mp hcond with hc1 | hc2
                · have hoc := hinv.g_oc (current.1 + d.1, current.2 + d.2) (by rw [hgn]; simp)
                  rcases hoc with ⟨e, he, he2⟩ | hcm
                  · have hany : st.open_set.any
                        (fun e => decide (e.2 = ((current.1 + d.1, current.2 + d.2) : Cell)))
                          = true :=
                      List.any_eq_true.mpr ⟨e, he, by rw [he2]; simp⟩
                    rw [hany] at hc1
                    exact absurd hc1 (by simp)
                  · exact hcl hcm
                · simp only [hgn, hgc, Option.getD_some, decide_eq_true_eq] at hc2
                  have := hgle _ gv hgn
                  omega
            have hnotopen : ¬∃ e ∈ st.open_set,
                e.2 = ((current.1 + d.1, current.2 + d.2) : Cell) := by
              rintro ⟨e, he, he2⟩
              exact hinv.open_g e he (by rw [he2]; exact hnog)
            refine ⟨rfl, Or.inr ⟨?_, ?_, rfl, hnog, hncl, hbnd, hnotopen⟩, ?_⟩
            · show ((alookup st.g_score current).getD 0 + 1 +
                  manhattan_distance (current.1 + d.1, current.2 + d.2) goal,
                  ((current.1 + d.1, current.2 + d.2) : Cell)) :: st.open_set = _
              rw [hgc]
              rfl
            · show (((current.1 + d.1, current.2 + d.2) : Cell),
                  (alookup st.g_score current).getD 0 + 1) :: st.g_score = _
              rw [hgc]
              rfl
            · intro _ _ _
              show ((alookup st.g_score current).getD 0 + 1 +
                  manhattan_distance (current.1 + d.1, current.2 + d.2) goal,
                  ((current.1 + d.1, current.2 + d.2) : Cell)) :: st.open_set = _
              rw [hgc]
              rfl
          case isFalse hcond =>
            injection hstep with h
            subst h
            refine ⟨rfl, Or.inl ⟨rfl, rfl, rfl⟩, ?_⟩
            intro _ _ hnog
            exfalso
            apply hcond
            have hany : st.open_set.any
                (fun e => decide (e.2 = ((current.1 + d.1, current.2 + d.2) : Cell)))
                  = false := by
              rw [List.any_eq_false]
              intro e he
              simp only [decide_eq_true_eq]
              intro he2
              exact hinv.open_g e he (by rw [he2]; exact hnog)
            rw [hany]
            simp
  case isFalse hbnd =>
    injection hstep with h
    subst h
    refine ⟨rfl, Or.inl ⟨rfl, rfl, rfl⟩, ?_⟩
    intro hb _ _
    exact absurd hb hbnd

/-- The effect of the whole neighbor loop on an obstacle-free grid: the
closed set is unchanged, old entries survive, every new entry is a fresh
neighbor of `current` pushed with score `gc + 1` and the matching f-value,
scores and predecessors of previously scored cells are untouched, and
every fresh in-bounds non-closed neighbor is pushed. -/
theorem expandDirs_beam
    {grid : Grid} {rows cols obstacle_value : Int} {goal current start : Cell} {gc : Int}
    (hrect : Rectangular grid) (hrows : rows = rowsOf grid) (hcols : cols = colsOf grid)
    (hfree : ObstacleFree grid obstacle_value) :
    ∀ (ds : List (Int × Int)) (st st2 : PFState), (∀ d ∈ ds, d ∈ directions) →
      SearchInv grid rows cols obstacle_value start st →
      alookup st.g_score current = some gc →
      (∀ x gx, alookup st.g_score x = some gx → gx ≤ gc + 1) →
      expandDirs grid rows cols obstacle_value goal current ds st = Except.ok st2 →
      (st2.closed_set = st.closed_set) ∧
      (∀ e ∈ st.open_set, e ∈ st2.open_set) ∧
      (∀ e ∈ st2.open_set, e ∈ st.open_set ∨
        (Adjacent current e.2 ∧ e.1 = gc + 1 + manhattan_distance e.2 goal ∧
          alookup st.g_score e.2 = none ∧ e.2 ∉ st.closed_set)) ∧
      (∀ x : Cell, alookup st.g_score x ≠ none →
        alookup st2.g_score x = alookup st.g_score x ∧
        alookup st2.came_from x = alookup st.came_from x) ∧
      (∀ x : Cell, alookup st2.g_score x ≠ none → alookup st.g_score x ≠ none ∨
        (alookup st2.g_score x = some (gc + 1) ∧
          alookup st2.came_from x = some current ∧ Adjacent current x)) ∧
      ((st.open_set.map Prod.snd).Nodup → (st2.open_set.map Prod.snd).Nodup) ∧
      (∀ x gx, alookup st2.g_score x = some gx → gx ≤ gc + 1) ∧
      (∀ d ∈ ds, InBoundsC rows cols (current.1 + d.1, current.2 + d.2) →
        ((current.1 + d.1, current.2 + d.2) : Cell) ∉ st.closed_set →
        alookup st.g_score (current.1 + d.1, current.2 + d.2) = none →
        (gc + 1 + manhattan_distance (current.1 + d.1, current.2 + d.2) goal,
          ((current.1 + d.1, current.2 + d.2) : Cell)) ∈ st2.open_set) := by
  intro ds
  induction ds with
  | nil =>
    intro st st2 hds hinv hgc hgle hrun
    have h : st = st2 := by
      injection hrun
    subst h
    refine ⟨rfl, fun e he => he, fun e he => Or.inl he, fun x hx => ⟨rfl, rfl⟩,
      fun x hx => Or.inl hx, fun h => h, hgle, ?_⟩
    intro d hd
    cases hd
  | cons d ds ih =>
    intro st st2 hds hinv hgc hgle hrun
    have hdmem : d ∈ directions := hds d (List.mem_cons_self _ _)
    rw [expandDirs] at hrun
    cases hstep : expandStep grid rows cols obstacle_value goal current d st with
    | error st' =>
      rw [hstep] at hrun
      exact absurd hrun (by simp)
    | ok st1 =>
      rw [hstep] at hrun
      obtain ⟨hcl1, hcase, hD⟩ :=
        expandStep_beam hrect hrows hcols hfree hinv hgc hgle hstep
      obtain ⟨st1x, hstepx, hinv1, _, hlook1⟩ :=
        @expandStep_ok grid rows cols obstacle_value goal current start d st
          (rows.toNat * cols.toNat + 2) hrect hrows hcols hinv
          (by rw [hgc]; simp) hdmem rfl
      rw [hstep] at hstepx
      have hx1 : st1 = st1x := by
        injection hstepx
      subst hx1
      have hgc1 : alookup st1.g_score current = some gc := by
        rw [hlook1, hgc]
      have hgle1 : ∀ x gx, alookup st1.g_score x = some gx → gx ≤ gc + 1 := by
        rcases hcase with ⟨_, hg, _⟩ | ⟨_, hg, _⟩
        · intro x gx hx
          rw [hg] at hx
          exact hgle x gx hx
        · intro x gx hx
          rw [hg, alookup_cons] at hx
          by_cases hxe : x = ((current.1 + d.1, current.2 + d.2) : Cell)
          · rw [if_pos hxe] at hx
            injection hx with hx
            omega
          · rw [if_neg hxe] at hx
            exact hgle x gx hx
      obtain ⟨iC1, iC2, iC3, iC4, iC5, iC6, iC7, iC8⟩ :=
        ih st1 st2 (fun x hx => hds x (List.mem_cons_of_mem _ hx)) hinv1 hgc1 hgle1 hrun
      rcases hcase with ⟨ho, hg, hcf⟩ | ⟨ho, hg, hcf, hnog, hnocl, hnbnd, hnoopen⟩
      · refine ⟨by rw [iC1, hcl1], ?_, ?_, ?_, ?_, ?_, iC7, ?_⟩
        · intro e he
          exact iC2 e (by rw [ho]; exact he)
        · intro e he
          rcases iC3 e he with h | ⟨hadj, hf, hgn, hcn⟩
          · rw [ho] at h
            exact Or.inl h
          · rw [hg] at hgn
            rw [hcl1] at hcn
            exact Or.inr ⟨hadj, hf, hgn, hcn⟩
        · intro x hx
          have hx1 : alookup st1.g_score x ≠ none := by
            rw [hg]
            exact hx
          obtain ⟨ha, hb⟩ := iC4 x hx1
          rw [hg] at ha
          rw [hcf] at hb
          exact ⟨ha, hb⟩
        · intro x hx
          rcases iC5 x hx with h | h
          · rw [hg] at h
            exact Or.inl h
          · exact Or.inr h
        · intro hnd
          exact iC6 (by rw [ho]; exact hnd)
        · intro d' hd' hbnd' hncl' hnog'
          rcases List.mem_cons.mp hd' with hde | hdt
          · subst hde
            have hpush := hD hbnd' hncl' hnog'
            rw [hpush] at ho
            have hlen := congrArg List.length ho
            simp at hlen
          · exact iC8 d' hdt hbnd' (by rw [hcl1]; exact hncl') (by rw [hg]; exact hnog')
      · refine ⟨by rw [iC1, hcl1], ?_, ?_, ?_, ?_, ?_, iC7, ?_⟩
        · intro e he
          exact iC2 e (by rw [ho]; exact List.mem_cons_of_mem _ he)
        · intro e he
          rcases iC3 e he with h | ⟨hadj, hf, hgn1, hcn1⟩
          · rw [ho] at h
            rcases List.mem_cons.mp h with he2 | he2
            · subst he2
              exact Or.inr ⟨adjacent_offset hdmem, rfl, hnog, hnocl⟩
            · exact Or.inl he2
          · rw [hg, alookup_cons] at hgn1
            by_cases hxe : e.2 = ((current.1 + d.1, current.2 + d.2) : Cell)
            · rw [if_pos hxe] at hgn1
              exact absurd hgn1 (by simp)
            · rw [if_neg hxe] at hgn1
              rw [hcl1] at hcn1
              exact Or.inr ⟨hadj, hf, hgn1, hcn1⟩
        · intro x hx
          have hxn : x ≠ ((current.1 + d.1, current.2 + d.2) : Cell) := by
            intro h
            apply hx
            rw [h]
            exact hnog
          have hg1x : alookup st1.g_score x = alookup st.g_score x := by
            rw [hg, alookup_cons, if_neg hxn]
          have hcf1x : alookup st1.came_from x = alookup st.came_from x := by
            rw [hcf, alookup_cons, if_neg hxn]
          obtain ⟨ha, hb⟩ := iC4 x (by rw [hg1x]; exact hx)
          rw [hg1x] at ha
          rw [hcf1x] at hb
          exact ⟨ha, hb⟩
        · intro x hx
          rcases iC5 x hx with h | h
          · rw [hg, alookup_cons] at h
            by_cases hxe : x = ((current.1 + d.1, current.2 + d.2) : Cell)
            · right
              have hg1 : alookup st1.g_score x = some (gc + 1) := by
                rw [hg, alookup_cons, if_pos hxe]
              have hcf1 : alookup st1.came_from x = some current := by
                rw [hcf, alookup_cons, if_pos hxe]
              obtain ⟨ha, hb⟩ := iC4 x (by rw [hg1]; simp)
              refine ⟨by rw [ha, hg1], by rw [hb, hcf1], ?_⟩
              rw [hxe]
              exact adjacent_offset hdmem
            · rw [if_neg hxe] at h
              exact Or.inl h
          · exact Or.inr h
        · intro hnd
          apply iC6
          rw [ho]
          dsimp only [List.map]
          rw [List.nodup_cons]
          refine ⟨?_, hnd⟩
          intro hmem
          obtain ⟨e, he, he2⟩ := List.mem_map.mp hmem
          exact hnoopen ⟨e, he, he2⟩
        · intro d' hd' hbnd' hncl' hnog'
          rcases List.mem_cons.mp hd' with hde | hdt
          · subst hde
            exact iC2 _ (by rw [ho]; exact List.mem_cons_self _ _)
          · by_cases hsame :
              ((current.1 + d'.1, current.2 + d'.2) : Cell) =
                ((current.1 + d.1, current.2 + d.2) : Cell)
            · apply iC2
              rw [ho, hsame]
              exact List.mem_cons_self _ _
            · refine iC8 d' hdt hbnd' (by rw [hcl1]; exact hncl') ?_
              rw [hg, alookup_cons, if_neg hsame]
              exact hnog'

theorem beam_F_mono (s t : Cell) (i : Nat) (hi : i < chebN s t) :
    ((i : Int) + 1) + manhattan_distance (beam s t (i + 1)) t ≤
      (i : Int) + manhattan_distance (beam s t i) t := by
  rw [manhattan_eq_manN, manhattan_eq_manN, manN_beam, manN_beam]
  unfold chebN at hi
  omega

theorem natAbs_comm (a b : Int) : (a - b).natAbs = (b - a).natAbs := by omega

theorem beam_neighbor_gt (s t : Cell) (i : Nat) (hi : i < chebN s t) {x : Cell}
    (hadj : Adjacent (beam s t i) x) (hne : x ≠ beam s t (i + 1)) :
    ((i : Int) + 1) + manhattan_distance (beam s t (i + 1)) t <
      (i : Int) + 1 + manhattan_distance x t := by
  suffices h : manN (beam s t (i + 1)) t < manN x t by
    rw [manhattan_eq_manN, manhattan_eq_manN]
    omega
  have hpos : 1 ≤ (t.1 - (beam s t i).1).natAbs ∨ 1 ≤ (t.2 - (beam s t i).2).natAbs := by
    obtain ⟨hb1, hb2, -, -⟩ := beam_facts s t i
    unfold chebN at hi
    clear hne hadj
    omega
  have hadj' : ((x.1 - (beam s t i).1, x.2 - (beam s t i).2) : Int × Int) ∈ directions := hadj
  have hd := mem_directions_bounds hadj'
  dsimp only at hd
  have hne' : ¬(x.1 - (beam s t i).1 = (t.1 - (beam s t i).1).sign ∧
      x.2 - (beam s t i).2 = (t.2 - (beam s t i).2).sign) := by
    rintro ⟨h1, h2⟩
    apply hne
    rw [beam_succ]
    unfold beamStep
    apply Prod.ext
    · dsimp only
      omega
    · dsimp only
      omega
  have key := neighbor_push_gt (t.1 - (beam s t i).1) (t.2 - (beam s t i).2)
      (x.1 - (beam s t i).1) (x.2 - (beam s t i).2) hd.1 hd.2.1 hne' hpos
  obtain ⟨hb1, hb2, _, _⟩ := beam_facts s t i
  have e1 : (t.1 - (beam s t i).1) - (x.1 - (beam s t i).1) = t.1 - x.1 := by ring
  have e2 : (t.2 - (beam s t i).2) - (x.2 - (beam s t i).2) = t.2 - x.2 := by ring
  rw [e1, e2, hb1, hb2] at key
  rw [natAbs_comm t.1 x.1, natAbs_comm t.2 x.2] at key
  rw [manN_beam]
  unfold manN
  clear hd hne' hpos hadj' hne hadj hi
  omega

theorem ReadyInv_init (rows cols : Int) (s t : Cell) :
    ReadyInv rows cols s t 0 (initState s t) := by
  refine ⟨?_, ?_, ?_, ?_, ?_, ?_, ?_, ?_, ?_⟩
  · intro x
    simp only [initState]
    constructor
    · intro h
      exact absurd h (List.not_mem_nil x)
    · rintro ⟨j, hj, _⟩
      omega
  · show (((0 : Nat) : Int) + manhattan_distance (beam s t 0) t, beam s t 0) ∈
      [((manhattan_distance s t : Int), s)]
    have h : (((0 : Nat) : Int) + manhattan_distance (beam s t 0) t, beam s t 0) =
        ((manhattan_distance s t : Int), s) := by
      show ((0 : Int) + manhattan_distance s t, s) = ((manhattan_distance s t : Int), s)
      rw [zero_add]
    rw [h]
    exact List.mem_singleton_self _
  · intro e he
    simp only [initState] at he
    rw [List.mem_singleton] at he
    subst he
    left
    show ((manhattan_distance s t : Int), s) = ((0 : Int) + manhattan_distance s t, s)
    rw [zero_add]
  · intro e he h
    simp only [initState] at h
    exact absurd h (List.not_mem_nil _)
  · show ([((manhattan_distance s t : Int), s)].map Prod.snd).Nodup
    simp
  · intro x gx hx
    simp only [initState] at hx
    rw [alookup_cons] at hx
    by_cases h : x = s
    · rw [if_pos h] at hx
      injection hx with hx
      show gx ≤ ((0 : Nat) : Int)
      omega
    · rw [if_neg h] at hx
      simp [alookup] at hx
  · intro j hj
    have hj0 : j = 0 := by omega
    subst hj0
    show alookup [(s, (0 : Int))] s = some ((0 : Nat) : Int)
    rw [alookup_cons, if_pos rfl]
    norm_num
  · intro j hj
    exact absurd hj (by omega)
  · intro x hx
    simp only [initState] at hx
    rw [alookup_cons] at hx
    by_cases h : x = s
    · exact Or.inl h
    · rw [if_neg h] at hx
      simp [alookup] at hx

set_option maxHeartbeats 4000000 in
/-- One loop iteration on an obstacle-free grid: from the state ready to
pop `beam s t i` (with `i` short of the goal), the loop pops exactly that
cell, expands it, and reaches the state ready to pop `beam s t (i + 1)`. -/
theorem ready_step
    {grid : Grid} {rows cols obstacle_value : Int} {s t : Cell} {i : Nat} {st : PFState}
    (hrect : Rectangular grid) (hrows : rows = rowsOf grid) (hcols : cols = colsOf grid)
    (hfree : ObstacleFree grid obstacle_value)
    (hs : InBoundsC rows cols s) (ht : InBoundsC rows cols t)
    (hi : i < chebN s t)
    (hR : ReadyInv rows cols s t i st)
    (hinv : SearchInv grid rows cols obstacle_value s st) :
    ∃ st2, (∀ fuel : Nat, searchLoop grid rows cols obstacle_value s t (fuel + 1) st =
        searchLoop grid rows cols obstacle_value s t fuel st2) ∧
      ReadyInv rows cols s t (i + 1) st2 ∧
      SearchInv grid rows cols obstacle_value s st2 := by
  have hc1 : ((i + 1 : Nat) : Int) = (i : Int) + 1 := by push_cast; ring
  set E : Int × Cell :=
    (((i : Nat) : Int) + manhattan_distance (beam s t i) t, beam s t i) with hE
  have hEmem : E ∈ st.open_set := hR.beam_entry
  have hpop : popMin st.open_set = some (E, st.open_set.erase E) :=
    popMin_strict hEmem (fun y hy => hR.open_gt y hy)
  have hgoalne : ¬(E.2 = t) := by
    intro h
    have h2 := chebN_beam_t s t i
    rw [show beam s t i = t from h, chebN_self] at h2
    omega
  have hgbi : alookup st.g_score (beam s t i) = some ((i : Nat) : Int) :=
    hR.g_beam i (le_refl i)
  have hinv1 : SearchInv grid rows cols obstacle_value s
      { st with open_set := st.open_set.erase E,
                closed_set := st.closed_set.insert E.2 } :=
    SearchInv_pop_close hinv hEmem
  have hgle1 : ∀ x gx, alookup st.g_score x = some gx → gx ≤ ((i : Nat) : Int) + 1 := by
    intro x gx hx
    have := hR.g_le x gx hx
    omega
  obtain ⟨st2, hexp, hinv2, _⟩ :=
    expandDirs_ok hrect hrows hcols rfl directions _ (fun d hd => hd) hinv1
      (show alookup st.g_score (beam s t i) ≠ none by rw [hgbi]; simp)
  obtain ⟨fC1, fC2, fC3, fC4, fC5, fC6, fC7, fC8⟩ :=
    expandDirs_beam hrect hrows hcols hfree directions _ st2 (fun d hd => hd)
      hinv1 hgbi hgle1 hexp
  have hnodup_st : (st.open_set.map Prod.snd).Nodup := hR.open_cells_nodup
  have hnodup_entries : st.open_set.Nodup := hnodup_st.of_map
  have hnodup1 : ((st.open_set.erase E).map Prod.snd).Nodup :=
    ((st.open_set.erase_sublist E).map Prod.snd).nodup hnodup_st
  have hbi1in : InBoundsC rows cols (beam s t (i + 1)) :=
    beam_inbounds rows cols s t (i + 1) (by omega) hs ht
  have hbi1ne : ∀ j : Nat, j ≤ i → beam s t (i + 1) ≠ beam s t j := by
    intro j hj h
    exact beam_ne s t (show j < i + 1 by omega) (by omega) h.symm
  have hbi1necl : beam s t (i + 1) ∉ st.closed_set.insert (beam s t i) := by
    intro h
    rcases List.mem_insert_iff.mp h with h | h
    · exact hbi1ne i (le_refl i) h
    · obtain ⟨j, hj, he⟩ := (hR.closed_iff _).mp h
      exact hbi1ne j (by omega) he
  have hbi1nog : alookup st.g_score (beam s t (i + 1)) = none := by
    cases hx : alookup st.g_score (beam s t (i + 1)) with
    | none => rfl
    | some gv =>
      exfalso
      rcases hR.g_near (beam s t (i + 1)) (by rw [hx]; simp) with h | ⟨j, hj, hadj⟩
      · exact hbi1ne 0 (by omega) h
      · have hch := chebN_beam_beam s t j (i + 1 - j) (by omega)
        have he : j + (i + 1 - j) = i + 1 := by omega
        rw [he] at hch
        have := adjacent_chebN hadj
        omega
  have hdstar : (((t.1 - (beam s t i).1).sign, (t.2 - (beam s t i).2).sign) : Int × Int)
      ∈ directions := by
    apply mem_directions_of_bounds
    · rcases sign_cases (t.1 - (beam s t i).1) with ⟨_, hs1⟩ | ⟨_, hs1⟩ | ⟨_, hs1⟩ <;>
        rw [hs1] <;> simp
    · rcases sign_cases (t.2 - (beam s t i).2) with ⟨_, hs1⟩ | ⟨_, hs1⟩ | ⟨_, hs1⟩ <;>
        rw [hs1] <;> simp
    · rintro ⟨hz1, hz2⟩
      rw [Int.sign_eq_zero_iff_zero] at hz1 hz2
      have h0 : chebN (beam s t i) t = 0 := by
        unfold chebN
        omega
      rw [chebN_beam_t] at h0
      omega
  have hpush : (((i : Nat) : Int) + 1 + manhattan_distance (beam s t (i + 1)) t,
      beam s t (i + 1)) ∈ st2.open_set :=
    fC8 _ hdstar hbi1in hbi1necl hbi1nog
  refine ⟨st2, ?_, ?_, hinv2⟩
  · intro fuel
    exact searchLoop_step hpop hgoalne hexp
  refine ⟨?_, ?_, ?_, ?_, ?_, ?_, ?_, ?_, ?_⟩
  · -- closed_iff
    intro x
    rw [fC1]
    dsimp only
    constructor
    · intro h
      rcases List.mem_insert_iff.mp h with h | h
      · exact ⟨i, by omega, h⟩
      · obtain ⟨j, hj, he⟩ := (hR.closed_iff x).mp h
        exact ⟨j, by omega, he⟩
    · rintro ⟨j, hj, rfl⟩
      by_cases hje : j = i
      · subst hje
        exact List.mem_insert_self _ _
      · exact List.mem_insert_of_mem ((hR.closed_iff _).mpr ⟨j, by omega, rfl⟩)
  · -- beam_entry
    rw [hc1]
    exact hpush
  · -- open_gt
    intro e he
    rcases fC3 e he with h | ⟨hadj, hf, hgn, hcn⟩
    · have hmem : e ∈ st.open_set := List.erase_subset _ _ h
      have hne : e ≠ E := ((hnodup_entries.mem_erase_iff).mp h).1
      rcases hR.open_gt e hmem with h2 | h2
      · exact absurd h2 hne
      · right
        have hmono := beam_F_mono s t i hi
        rw [hc1]
        omega
    · by_cases hcell : e.2 = beam s t (i + 1)
      · left
        have hp : e = (e.1, e.2) := rfl
        rw [hp, hf, hcell, hc1]
      · right
        have hgt := beam_neighbor_gt s t i hi hadj hcell
        rw [hf, hc1]
        omega
  · -- open_not_closed
    intro e he
    rw [fC1]
    dsimp only
    intro hmem
    rcases fC3 e he with h | ⟨hadj, hf, hgn, hcn⟩
    · have hmemo : e ∈ st.open_set := List.erase_subset _ _ h
      have hne : e ≠ E := ((hnodup_entries.mem_erase_iff).mp h).1
      rcases List.mem_insert_iff.mp hmem with h2 | h2
      · have heq := List.inj_on_of_nodup_map hnodup_st hmemo hEmem h2
        exact hne heq
      · exact hR.open_not_closed e hmemo h2
    · exact hcn hmem
  · -- open_cells_nodup
    exact fC6 hnodup1
  · -- g_le
    intro x gx hx
    have := fC7 x gx hx
    rw [hc1]
    omega
  · -- g_beam
    intro j hj
    by_cases hje : j = i + 1
    · subst hje
      have hne : alookup st2.g_score (beam s t (i + 1)) ≠ none :=
        hinv2.open_g _ hpush
      rcases fC5 _ hne with h | ⟨hgv, _, _⟩
      · exact absurd hbi1nog h
      · rw [hgv, hc1]
    · have hjle : j ≤ i := by omega
      have hgs : alookup st.g_score (beam s t j) = some ((j : Nat) : Int) :=
        hR.g_beam j hjle
      obtain ⟨ha, _⟩ := fC4 (beam s t j) (by rw [hgs]; simp)
      rw [ha, hgs]
  · -- cf_beam
    intro j hj
    by_cases hje : j = i
    · rw [hje]
      have hne : alookup st2.g_score (beam s t (i + 1)) ≠ none :=
        hinv2.open_g _ hpush
      rcases fC5 _ hne with h | ⟨_, hcf, _⟩
      · exact absurd hbi1nog h
      · exact hcf
    · have hjlt : j < i := by omega
      have hgs : alookup st.g_score (beam s t (j + 1)) = some ((j + 1 : Nat) : Int) :=
        hR.g_beam (j + 1) (by omega)
      obtain ⟨_, hb⟩ := fC4 (beam s t (j + 1)) (by rw [hgs]; simp)
      rw [hb]
      exact hR.cf_beam j hjlt
  · -- g_near
    intro x hx
    rcases fC5 x hx with h | ⟨_, _, hadj⟩
    · rcases hR.g_near x h with h2 | ⟨j, hj, hadj⟩
      · exact Or.inl h2
      · exact Or.inr ⟨j, by omega, hadj⟩
    · exact Or.inr ⟨i, by omega, hadj⟩

theorem walkBack_beam (s t : Cell) (cf : List (Cell × Cell)) (D : Nat)
    (hcf0 : alookup cf s = none)
    (hcfj : ∀ j : Nat, j < D → alookup cf (beam s t (j + 1)) = some (beam s t j)) :
    ∀ j : Nat, j ≤ D → ∀ (fuel : Nat) (acc : List Cell), j ≤ fuel →
      ∃ L, walkBack cf fuel (beam s t j) acc = some (acc ++ L) ∧ L.length = j := by
  intro j
  induction j with
  | zero =>
    intro _ fuel acc _
    have hb0 : alookup cf (beam s t 0) = none := hcf0
    refine ⟨[], ?_, rfl⟩
    rw [List.append_nil]
    cases fuel with
    | zero => rw [walkBack, hb0]
    | succ f => rw [walkBack, hb0]
  | succ j ihj =>
    intro hjD fuel acc hjf
    cases fuel with
    | zero => exact absurd hjf (by omega)
    | succ f =>
      have hcf := hcfj j (by omega)
      obtain ⟨L, hw, hl⟩ := ihj (by omega) f (acc ++ [beam s t (j + 1)]) (by omega)
      refine ⟨beam s t (j + 1) :: L, ?_, by simp [hl]⟩
      rw [walkBack, hcf]
      show walkBack cf f (beam s t j) (acc ++ [beam s t (j + 1)]) =
        some (acc ++ beam s t (j + 1) :: L)
      rw [hw, List.append_assoc]
      rfl

/-- The final iteration on an obstacle-free grid: from the state ready to
pop `beam s t D` with `D` the Chebyshev distance, the loop pops the goal
and returns the reconstructed beam path of `D + 1` cells. -/
theorem ready_finish
    {grid : Grid} {rows cols obstacle_value : Int} {s t : Cell} {st : PFState}
    (hR : ReadyInv rows cols s t (chebN s t) st)
    (hinv : SearchInv grid rows cols obstacle_value s st) :
    ∀ fuel : Nat, ∃ p, searchLoop grid rows cols obstacle_value s t (fuel + 1) st =
      (PFResult.path p, st) ∧ p.length = chebN s t + 1 := by
  set E : Int × Cell :=
    (((chebN s t : Nat) : Int) + manhattan_distance (beam s t (chebN s t)) t,
      beam s t (chebN s t)) with hE
  have hEmem : E ∈ st.open_set := hR.beam_entry
  have hpop : popMin st.open_set = some (E, st.open_set.erase E) :=
    popMin_strict hEmem (fun y hy => hR.open_gt y hy)
  have hgoal : E.2 = t := beam_hits s t
  have hgt : alookup st.g_score t = some ((chebN s t : Nat) : Int) := by
    have h := hR.g_beam (chebN s t) (le_refl _)
    rw [beam_hits] at h
    exact h
  have hfuel : chebN s t ≤ st.came_from.length := by
    have hb := hinv.g_bounds t _ hgt
    have hsub : (gKeys st).toFinset ⊆ insert s (st.came_from.map Prod.fst).toFinset := by
      intro a ha
      rw [List.mem_toFinset] at ha
      rcases hinv.g_cf a (alookup_ne_none_iff.mpr ha) with h | h
      · rw [h]
        exact Finset.mem_insert_self _ _
      · exact Finset.mem_insert_of_mem (List.mem_toFinset.mpr (alookup_ne_none_iff.mp h))
    have hc1 : gKeysCard st ≤ (st.came_from.map Prod.fst).toFinset.card + 1 :=
      le_trans (Finset.card_le_card hsub) (Finset.card_insert_le _ _)
    have hc2 : (st.came_from.map Prod.fst).toFinset.card ≤ st.came_from.length := by
      calc (st.came_from.map Prod.fst).toFinset.card
          ≤ (st.came_from.map Prod.fst).length := List.toFinset_card_le _
        _ = st.came_from.length := List.length_map _ _
    obtain ⟨hb1, hb2⟩ := hb
    unfold gKeysCard at hb2 hc1
    omega
  obtain ⟨L, hw, hl⟩ := walkBack_beam s t st.came_from (chebN s t) hinv.cf_start
    hR.cf_beam (chebN s t) (le_refl _) st.came_from.length [] hfuel
  rw [beam_hits s t] at hw
  rw [List.nil_append] at hw
  have hrec : reconstructPath st.came_from s t = some ((L ++ [s]).reverse) := by
    unfold reconstructPath
    rw [hw]
    rfl
  intro fuel
  refine ⟨(L ++ [s]).reverse, ?_, ?_⟩
  · exact searchLoop_goal hpop hgoal (by rw [hgoal]; exact hrec)
  · rw [List.length_reverse, List.length_append, hl]
    rfl

/-- Running the loop from the state ready to pop `beam s t i`, with `k`
beam cells left, returns the beam path. -/
theorem beam_run
    {grid : Grid} {rows cols obstacle_value : Int} {s t : Cell}
    (hrect : Rectangular grid) (hrows : rows = rowsOf grid) (hcols : cols = colsOf grid)
    (hfree : ObstacleFree grid obstacle_value)
    (hs : InBoundsC rows cols s) (ht : InBoundsC rows cols t) :
    ∀ (k i : Nat) (st : PFState), i + k = chebN s t →
      ReadyInv rows cols s t i st →
      SearchInv grid rows cols obstacle_value s st →
      ∀ fuel : Nat, k < fuel →
      ∃ p stf, searchLoop grid rows cols obstacle_value s t fuel st =
        (PFResult.path p, stf) ∧ p.length = chebN s t + 1 := by
  intro k
  induction k with
  | zero =>
    intro i st hik hR hinv fuel hf
    have hiD : i = chebN s t := by omega
    subst hiD
    cases fuel with
    | zero => exact absurd hf (by omega)
    | succ f =>
      obtain ⟨p, hsl, hlen⟩ := ready_finish hR hinv f
      exact ⟨p, st, hsl, hlen⟩
  | succ k ihk =>
    intro i st hik hR hinv fuel hf
    have hi : i < chebN s t := by omega
    obtain ⟨st2, heq, hR2, hinv2⟩ := ready_step hrect hrows hcols hfree hs ht hi hR hinv
    cases fuel with
    | zero => exact absurd hf (by omega)
    | succ f =>
      obtain ⟨p, stf, hsl, hlen⟩ := ihk (i + 1) st2 (by omega) hR2 hinv2 f (by omega)
      refine ⟨p, stf, ?_, hlen⟩
      rw [heq f]
      exact hsl

/-- Claim C6: on a rectangular non-empty grid none of whose cells carries
the obstacle label, for every pair of distinct in-bounds cells the call
returns a path whose edge count (number of cells minus one) equals the
Chebyshev distance `max |Δrow| |Δcol|` between start and goal. -/
theorem claim6_chebyshev_length (grid : Grid) (start goal : Cell) (obstacle_value : Int)
    (hrect : Rectangular grid)
    (hfree : ObstacleFree grid obstacle_value)
    (hs : InBoundsC (rowsOf grid) (colsOf grid) start)
    (hg : InBoundsC (rowsOf grid) (colsOf grid) goal)
    (hne : start ≠ goal) :
    ∃ p, (pathfinder grid start goal obstacle_value).1 = PFResult.path p ∧
      (p.length : Int) - 1 = chebyshev start goal := by
  obtain ⟨r0, rest, hgrid⟩ : ∃ r0 rest, grid = r0 :: rest := by
    cases grid with
    | nil => exact absurd rfl hrect.1
    | cons a l => exact ⟨a, l, rfl⟩
  subst hgrid
  have hpf : pathfinder (r0 :: rest) start goal obstacle_value =
      ((searchLoop (r0 :: rest) (rowsOf (r0 :: rest)) (colsOf (r0 :: rest)) obstacle_value
        start goal (searchFuel (r0 :: rest)) (initState start goal)).1,
       (searchLoop (r0 :: rest) (rowsOf (r0 :: rest)) (colsOf (r0 :: rest)) obstacle_value
        start goal (searchFuel (r0 :: rest)) (initState start goal)).2.events) := rfl
  have hr0pos : 0 < r0.length := by
    obtain ⟨_, _, h3, h4⟩ := hg
    unfold colsOf at h4
    dsimp only [List.headD] at h4
    omega
  have hA : (start.1 - goal.1).natAbs < (r0 :: rest).length := by
    obtain ⟨hs1, hs2, _, _⟩ := hs
    obtain ⟨hg1, hg2, _, _⟩ := hg
    unfold rowsOf at hs2 hg2
    omega
  have hB : (start.2 - goal.2).natAbs < r0.length := by
    obtain ⟨_, _, hs3, hs4⟩ := hs
    obtain ⟨_, _, hg3, hg4⟩ := hg
    unfold colsOf at hs4 hg4
    dsimp only [List.headD] at hs4 hg4
    omega
  have hfuel : chebN start goal < searchFuel (r0 :: rest) := by
    unfold chebN searchFuel
    dsimp only [List.headD, List.length_cons]
    have h1 : rest.length + 1 ≤ (rest.length + 1) * r0.length :=
      Nat.le_mul_of_pos_right _ hr0pos
    have h2 : r0.length ≤ (rest.length + 1) * r0.length :=
      Nat.le_mul_of_pos_left _ (by omega)
    have h3 : (rest.length + 1) * r0.length + 2 ≤
        ((rest.length + 1) * r0.length + 2) * ((rest.length + 1) * r0.length + 2) :=
      Nat.le_mul_of_pos_right _ (by omega)
    simp only [List.length_cons] at hA
    omega
  obtain ⟨p, stf, hsl, hlen⟩ :=
    @beam_run (r0 :: rest) (rowsOf (r0 :: rest)) (colsOf (r0 :: rest)) obstacle_value
      start goal hrect rfl rfl hfree
      hs hg (chebN start goal) 0 (initState start goal) (by omega)
      (ReadyInv_init _ _ start goal) SearchInv_init (searchFuel (r0 :: rest)) hfuel
  refine ⟨p, ?_, ?_⟩
  · rw [hpf]
    dsimp only
    rw [hsl]
  · rw [chebyshev_eq_chebN, hlen]
    push_cast
    ring

theorem claim6_witness :
    Rectangular [[0, 0], [0, 0]] ∧
    ObstacleFree [[0, 0], [0, 0]] 2 ∧
    InBoundsC (rowsOf [[0, 0], [0, 0]]) (colsOf [[0, 0], [0, 0]]) (0, 0) ∧
    InBoundsC (rowsOf [[0, 0], [0, 0]]) (colsOf [[0, 0], [0, 0]]) (1, 1) ∧
    ((0, 0) : Cell) ≠ (1, 1) ∧
    (∃ p, (pathfinder [[0, 0], [0, 0]] (0, 0) (1, 1) 2).1 = PFResult.path p ∧
      (p.length : Int) - 1 = chebyshev (0, 0) (1, 1)) :=
  ⟨by decide, by decide, by decide, by decide, by decide,
    claim6_chebyshev_length [[0, 0], [0, 0]] (0, 0) (1, 1) 2
      (by decide) (by decide) (by decide) (by decide) (by decide)⟩

/-- Claim C1: on a rectangular non-empty grid with in-bounds, non-obstacle
start and goal, any returned path starts at `start`, ends at `goal`, moves
only by the eight legal offsets, visits no obstacle cell, and repeats no
cell. -/
theorem claim1_path_valid (grid : Grid) (start goal : Cell) (obstacle_value : Int)
    (p : List Cell)
    (hrect : Rectangular grid)
    (hs : InBoundsC (rowsOf grid) (colsOf grid) start)
    (hg : InBoundsC (rowsOf grid) (colsOf grid) goal)
    (hso : gridGet grid start.1 start.2 ≠ some obstacle_value)
    (hgo : gridGet grid goal.1 goal.2 ≠ some obstacle_value)
    (hres : (pathfinder grid start goal obstacle_value).1 = PFResult.path p) :
    p.head? = some start ∧ p.getLast? = some goal ∧ List.Chain' Adjacent p ∧ p.Nodup ∧
      ∀ c ∈ p, gridGet grid c.1 c.2 ≠ some obstacle_value := by
  rcases pathfinder_master hrect with h | ⟨p2, hf, hpok, _, _⟩
  · rw [h] at hres
    exact PFResult.noConfusion hres
  · rw [hf] at hres
    injection hres with hres
    subst hres
    refine ⟨hpok.head, hpok.last, hpok.adj, hpok.nodup, ?_⟩
    intro c hc
    rcases hpok.cells c hc with h1 | h1
    · rw [h1]
      exact hso
    · exact h1.2

theorem claim1_witness :
    (([(0, 0), (1, 1)] : List Cell).head? = some (0, 0) ∧
      ([(0, 0), (1, 1)] : List Cell).getLast? = some (1, 1) ∧
      List.Chain' Adjacent ([(0, 0), (1, 1)] : List Cell) ∧
      ([(0, 0), (1, 1)] : List Cell).Nodup ∧
      ∀ c ∈ ([(0, 0), (1, 1)] : List Cell), gridGet [[0, 0], [0, 0]] c.1 c.2 ≠ some 2) :=
  claim1_path_valid [[0, 0], [0, 0]] (0, 0) (1, 1) 2 [(0, 0), (1, 1)]
    (by decide) (by decide) (by decide) (by decide) (by decide) (by decide)

/-- Claim C2: on a rectangular non-empty grid with in-bounds, non-obstacle
start and goal, if no sequence of 8-neighbor moves through non-obstacle
cells connects start to goal, the call returns the distinct no-path result
`None` (not an exception and not a path). -/
theorem claim2_unreachable_noPath (grid : Grid) (start goal : Cell) (obstacle_value : Int)
    (hrect : Rectangular grid)
    (hs : InBoundsC (rowsOf grid) (colsOf grid) start)
    (hg : InBoundsC (rowsOf grid) (colsOf grid) goal)
    (hso : gridGet grid start.1 start.2 ≠ some obstacle_value)
    (hgo : gridGet grid goal.1 goal.2 ≠ some obstacle_value)
    (hunreach : ¬ Reachable grid (rowsOf grid) (colsOf grid) obstacle_value start goal) :
    (pathfinder grid start goal obstacle_value).1 = PFResult.noPath := by
  rcases pathfinder_master hrect with h | ⟨p, hf, _, hreach, _⟩
  · exact h
  · exact absurd hreach hunreach

theorem claim2_witness :
    (pathfinder [[0, 2, 0]] ((0 : Int), (0 : Int)) ((0 : Int), (2 : Int)) 2).1 =
      PFResult.noPath :=
  claim2_unreachable_noPath [[0, 2, 0]] (0, 0) (0, 2) 2 (by decide) (by decide) (by decide)
    (by decide) (by decide) (by
      intro h
      have haux : ∀ c, Reachable [[0, 2, 0]] 1 3 2 (0, 0) c → c = ((0 : Int), (0 : Int)) := by
        intro c hc
        induction hc with
        | refl => rfl
        | @step cp n hprev hadj hin hob ih =>
          exfalso
          rw [ih] at hadj
          unfold Adjacent at hadj
          unfold InBoundsC at hin
          obtain ⟨hi1, hi2, hi3, hi4⟩ := hin
          simp only [directions, List.mem_cons, List.not_mem_nil, or_false,
            Prod.mk.injEq] at hadj
          rcases hadj with ⟨h1, h2⟩ | ⟨h1, h2⟩ | ⟨h1, h2⟩ | ⟨h1, h2⟩ | ⟨h1, h2⟩ |
            ⟨h1, h2⟩ | ⟨h1, h2⟩ | ⟨h1, h2⟩
          · apply hob
            have hn : n = ((0 : Int), (1 : Int)) := Prod.ext (by omega) (by omega)
            rw [hn]
            decide
          all_goals omega
      exact absurd (haux _ h) (by decide))

/-- Claim C3: on a rectangular non-empty grid, for an in-bounds,
non-obstacle start, `pathfinder grid start start` returns exactly the
single-cell path `[start]`. -/
theorem claim3_start_eq_goal (grid : Grid) (start : Cell) (obstacle_value : Int)
    (hrect : Rectangular grid)
    (hs : InBoundsC (rowsOf grid) (colsOf grid) start)
    (hso : gridGet grid start.1 start.2 ≠ some obstacle_value) :
    (pathfinder grid start start obstacle_value).1 = PFResult.path [start] := by
  obtain ⟨r0, rest, hgrid⟩ : ∃ r0 rest, grid = r0 :: rest := by
    cases grid with
    | nil => exact absurd rfl hrect.1
    | cons a l => exact ⟨a, l, rfl⟩
  subst hgrid
  have hpf : (pathfinder (r0 :: rest) start start obstacle_value).1 =
      (searchLoop (r0 :: rest) (rowsOf (r0 :: rest)) (colsOf (r0 :: rest)) obstacle_value
        start start (searchFuel (r0 :: rest)) (initState start start)).1 := rfl
  rw [hpf]
  obtain ⟨n, hn⟩ : ∃ n, searchFuel (r0 :: rest) = n + 1 := by
    have h2 : 0 < searchFuel (r0 :: rest) := by
      show 0 < ((r0 :: rest).length * ((r0 :: rest).headD []).length + 2) *
        ((r0 :: rest).length * ((r0 :: rest).headD []).length + 2)
      exact Nat.mul_pos (by omega) (by omega)
    exact ⟨searchFuel (r0 :: rest) - 1, by omega⟩
  rw [hn]
  have hpop : popMin (initState start start).open_set =
      some ((manhattan_distance start start, start), []) := by
    simp [initState, popMin, heapMin]
  rw [searchLoop_goal hpop rfl rfl]
  rfl

theorem claim3_witness :
    (pathfinder [[0]] ((0 : Int), (0 : Int)) ((0 : Int), (0 : Int)) 2).1 =
      PFResult.path [(0, 0)] :=
  claim3_start_eq_goal [[0]] (0, 0) 2 (by decide) (by decide) (by decide)

/-- Claim C4 counterexample: with an obstacle on the start cell, the call
does not fail with a `BlockedEndpoint` error; the search runs and produces
an ordinary path result. -/
theorem claim4_counterexample :
    gridGet [[2, 0], [0, 0]] 0 0 = some 2 ∧
      (pathfinder [[2, 0], [0, 0]] ((0 : Int), (0 : Int)) ((1 : Int), (1 : Int)) 2).1 =
        PFResult.path [(0, 0), (1, 1)] := by
  constructor
  · decide
  · decide

/-- Claim C4 (amended): `pathfinder` never raises a `BlockedEndpoint`
error. When the goal cell is an obstacle and differs from the start, the
ordinary search runs to exhaustion and returns `None`; when the start is
an obstacle the search simply proceeds from it. -/
theorem claim4_blocked_goal_noPath (grid : Grid) (start goal : Cell) (obstacle_value : Int)
    (hrect : Rectangular grid)
    (hob : gridGet grid goal.1 goal.2 = some obstacle_value)
    (hne : start ≠ goal) :
    (pathfinder grid start goal obstacle_value).1 = PFResult.noPath := by
  rcases pathfinder_master hrect with h | ⟨p, hf, _, _, hcell⟩
  · exact h
  · rcases hcell with h1 | h1
    · exact absurd h1.symm hne
    · exact absurd hob h1.2

theorem claim4_witness :
    (pathfinder [[0, 0], [0, 2]] ((0 : Int), (0 : Int)) ((1 : Int), (1 : Int)) 2).1 =
      PFResult.noPath :=
  claim4_blocked_goal_noPath [[0, 0], [0, 2]] (0, 0) (1, 1) 2 (by decide) (by decide) (by decide)

/-- Claim C5 counterexample: an out-of-bounds start is not rejected before
the loop; the search runs anyway and even returns a path that begins at
the out-of-bounds cell. -/
theorem claim5_counterexample :
    (pathfinder [[0, 0]] ((0 : Int), (2 : Int)) ((0 : Int), (0 : Int)) 2).1 =
      PFResult.path [(0, 2), (0, 1), (0, 0)] := by
  decide

/-- Claim C5 (amended): no precondition is validated. An empty grid raises
an immediate `IndexError` from evaluating `len(grid[0])` (not a
descriptive `InvalidGrid` error) before any search state exists;
out-of-bounds endpoints and ragged rows are not detected and the search
simply runs. -/
theorem claim5_no_validation (start goal : Cell) (obstacle_value : Int) :
    pathfinder [] start goal obstacle_value = (PFResult.indexError, []) := rfl

/-- Claim C7 counterexample: on the 5×5 wall grid the returned path has 9
cells (8 edges), not the 7 cells (6 edges) the claim states; any path from
(0,0) to (0,4) must cross the wall gap at (4,2), which already costs
4 + 4 = 8 Chebyshev steps. -/
theorem claim7_counterexample :
    (pathfinder wallGrid5 ((0 : Int), (0 : Int)) ((0 : Int), (4 : Int)) 2).1 =
      PFResult.path [(0, 0), (1, 1), (2, 1), (3, 1), (4, 2), (3, 3), (2, 4), (1, 4), (0, 4)] ∧
    ([(0, 0), (1, 1), (2, 1), (3, 1), (4, 2), (3, 3), (2, 4), (1, 4), (0, 4)] :
      List Cell).length ≠ 7 := by
  constructor
  · decide
  · decide

/-- Claim C7 (amended): on the 5×5 wall grid with start (0,0) and goal
(0,4), `pathfinder` returns a path that passes through the gap (4,2) and
has exactly 8 edges (9 cells). -/
theorem claim7_wall_path :
    ∃ p, (pathfinder wallGrid5 ((0 : Int), (0 : Int)) ((0 : Int), (4 : Int)) 2).1 =
      PFResult.path p ∧ ((4 : Int), (2 : Int)) ∈ p ∧ p.length = 9 :=
  ⟨[(0, 0), (1, 1), (2, 1), (3, 1), (4, 2), (3, 3), (2, 4), (1, 4), (0, 4)],
    by decide, by decide, by decide⟩

/-- Claim C8: `pathfinder` never mutates the grid: its access trace
contains only reads, so replaying the trace on the grid leaves every cell
label unchanged. -/
theorem claim8_no_mutation (grid : Grid) (start goal : Cell) (obstacle_value : Int) :
    applyEvents grid (pathfinder grid start goal obstacle_value).2 = grid := by
  apply applyEvents_reads
  intro e he
  obtain ⟨r, c, heq, _⟩ := pathfinder_good e he
  exact ⟨r, c, heq⟩

/-- Claim C9 counterexample: the goal cell itself is read during the
search (as a bounds-checked neighbor of an expanded cell), contradicting
the claim that the start and goal cells are never read. -/
theorem claim9_counterexample :
    GridEvent.read 0 1 ∈ (pathfinder [[0, 0]] ((0 : Int), (0 : Int)) ((0 : Int), (1 : Int)) 2).2 := by
  decide

/-- Claim C9 (amended): for every rectangular non-empty grid and arbitrary
integer start and goal, no grid access is out of range: the call never
raises `IndexError`, and every read in the trace is at coordinates that
passed the bounds check (though such a read may fall on the start or goal
cell when it is visited as a neighbor). -/
theorem claim9_reads_bounds_checked (grid : Grid) (start goal : Cell) (obstacle_value : Int)
    (hrect : Rectangular grid) :
    (pathfinder grid start goal obstacle_value).1 ≠ PFResult.indexError ∧
    ∀ r c, GridEvent.read r c ∈ (pathfinder grid start goal obstacle_value).2 →
      0 ≤ r ∧ r < rowsOf grid ∧ 0 ≤ c ∧ c < colsOf grid := by
  constructor
  · rcases pathfinder_master hrect with h | ⟨p, hf, _⟩
    · rw [h]
      exact PFResult.noConfusion
    · rw [hf]
      exact PFResult.noConfusion
  · intro r c hrc
    obtain ⟨r2, c2, heq, hb1, hb2, hb3, hb4⟩ := pathfinder_good _ hrc
    injection heq with e1 e2
    subst e1
    subst e2
    exact ⟨hb1, hb2, hb3, hb4⟩

theorem claim9_witness :
    (pathfinder [[0]] ((0 : Int), (0 : Int)) ((0 : Int), (0 : Int)) 2).1 ≠
      PFResult.indexError ∧
    ∀ r c, GridEvent.read r c ∈ (pathfinder [[0]] ((0 : Int), (0 : Int))
      ((0 : Int), (0 : Int)) 2).2 →
      0 ≤ r ∧ r < rowsOf [[0]] ∧ 0 ≤ c ∧ c < colsOf [[0]] :=
  claim9_reads_bounds_checked [[0]] (0, 0) (0, 0) 2 (by decide)

/-- Claim C10: on every rectangular non-empty grid, for every start and
goal, `pathfinder` terminates with an ordinary result: either a path or
the no-path answer — the fuelled model never exhausts its fuel, because
each loop iteration strictly decreases the potential `phi`. -/
theorem claim10_terminates (grid : Grid) (start goal : Cell) (obstacle_value : Int)
    (hrect : Rectangular grid) :
    (pathfinder grid start goal obstacle_value).1 = PFResult.noPath ∨
    ∃ p, (pathfinder grid start goal obstacle_value).1 = PFResult.path p := by
  rcases pathfinder_master hrect with h | ⟨p, hf, _⟩
  · exact Or.inl h
  · exact Or.inr ⟨p, hf⟩

theorem claim10_witness :
    (pathfinder [[0, 0]] ((0 : Int), (1 : Int)) ((0 : Int), (0 : Int)) 2).1 =
      PFResult.noPath ∨
    ∃ p, (pathfinder [[0, 0]] ((0 : Int), (1 : Int)) ((0 : Int), (0 : Int)) 2).1 =
      PFResult.path p :=
  claim10_terminates [[0, 0]] (0, 1) (0, 0) 2 (by decide)
